import Mathlib

/-!
# Verification of the `database` repository (B-tree index and MapReduce engine)

This file is a shallow embedding, in Lean 4, of the two C source files of the
repository (`src/btree.c` and `src/mapreduce.c`), together with theorems that
settle the frozen claims about them.

Conventions of the embedding:
* C machine integers are modelled as `Int` (the B-tree `int` key) or `Nat`
  with explicit `% 2^32` where 32-bit unsigned overflow matters (the djb2
  hash).
* Heap pointers that may be `NULL` are modelled as `Option`.
* In-place mutation is modelled by explicit state passing: every C function
  that mutates a node or a context returns the updated value.
* Array slots beyond the occupancy count (`num_keys`) are not represented:
  a node's `keys` list is exactly the occupied prefix `keys[0..num_keys)` and
  its `children` list the prefix `children[0..num_keys]`.
* Out-of-bounds accesses (undefined behaviour in C) are given the harmless
  default value via `getD`/`headD`/`getLastD`; all theorems below assume (or
  concretely provide) well-formed trees on which no such access happens.
* The recursive mutators `btree_insert_non_full` and `btree_delete_from_node`
  descend into freshly rebuilt children, so they are defined with an explicit
  recursion-depth argument (`fuel`); the public entry points pass the height
  of the tree, which is shown (and, on concrete inputs, computed) to be
  sufficient, so the `fuel = 0` branch is never reached on well-formed input.
-/

namespace DB

/-- `#define ORDER 5` from `btree.c`. -/
def ORDER : Nat := 5

/-- `Value` from `btree.c`: `{void* data; size_t data_size;}`.
`data = none` models a `NULL` pointer; `some bytes` models a heap buffer
holding `bytes`. -/
structure Value where
  data : Option (List Nat)
  data_size : Nat
  deriving DecidableEq, Repr, Inhabited

/-- `KeyValue` from `btree.c`: an `int` key with its `Value`. -/
structure KeyValue where
  key : Int
  value : Value
  deriving DecidableEq, Repr, Inhabited

/-- `BTreeNode` from `btree.c`.  `keys` is the occupied prefix
`keys[0..num_keys)` of the key array (so `num_keys = keys.length`), and
`children` the prefix `children[0..num_keys]` of the child array. -/
inductive BTreeNode where
  | mk (is_leaf : Bool) (keys : List KeyValue) (children : List BTreeNode)

instance : Inhabited BTreeNode := ⟨.mk true [] []⟩

def BTreeNode.is_leaf : BTreeNode → Bool
  | .mk l _ _ => l

def BTreeNode.keys : BTreeNode → List KeyValue
  | .mk _ ks _ => ks

def BTreeNode.children : BTreeNode → List BTreeNode
  | .mk _ _ cs => cs

/-- `BTree` from `btree.c`: a possibly-`NULL` root and the derived
`min_degree` computed in `btree_create`. -/
structure BTree where
  root : Option BTreeNode
  min_degree : Nat

/-- `btree_create`: empty root, `min_degree = ⌈ORDER/2⌉`. -/
def btree_create : BTree :=
  { root := none
    min_degree := ORDER / 2 + (if ORDER % 2 = 0 then 0 else 1) }

/-- Height of a node (number of levels below and including it). -/
def height : BTreeNode → Nat
  | .mk _ _ cs => 1 + heightList cs
where heightList : List BTreeNode → Nat
  | [] => 0
  | c :: cs => max (height c) (heightList cs)

/-- In-order contents of a node, exactly as `btree_traverse_node` visits
pairs: child 0, key 0, child 1, key 1, …, child `num_keys`. -/
def toList : BTreeNode → List KeyValue
  | .mk l ks cs => if l then ks else interleave cs ks
where interleave : List BTreeNode → List KeyValue → List KeyValue
  | [], _ => []
  | c :: _, [] => toList c
  | c :: cs, k :: ks => toList c ++ k :: interleave cs ks

/-- In-order key sequence of the whole tree, as printed by
`btree_traverse`. -/
def btree_traverse (t : BTree) : List Int :=
  match t.root with
  | none => []
  | some r => (toList r).map (·.key)

/-- `btree_search_node`: scan for the first slot with `keys[i].key ≥ key`,
return its value on an exact hit, else descend into child `i`
(`none` on a leaf miss).  `fuel` bounds the recursion depth (see the file
comment); the public entry point passes the height of the root, which the
theorems show is never exhausted on the trees they quantify over. -/
def btree_search_node (fuel : Nat) (n : BTreeNode) (key : Int) : Option Value :=
  match fuel with
  | 0 => none
  | fuel + 1 =>
    match n with
    | .mk l ks cs =>
      let i := (ks.takeWhile (fun kv => kv.key < key)).length
      if (ks.getD i default).key = key ∧ i < ks.length then
        some (ks.getD i default).value
      else if l then
        none
      else
        btree_search_node fuel (cs.getD i default) key

/-- `btree_search`: `NULL` tree or root gives `NULL`. -/
def btree_search (t : BTree) (key : Int) : Option Value :=
  match t.root with
  | none => none
  | some r => btree_search_node (height r) r key

/-- `btree_split_child(parent, index)` from `btree.c`, translated literally
with the source's `ORDER / 2` (integer, i.e. flooring, division):
the new right child receives the `ORDER/2 - 1` keys starting at index
`ORDER/2` (and the `ORDER/2` children starting at index `ORDER/2`), the left
child is truncated to `ORDER/2 - 1` keys (children `[0, ORDER/2)`), and the
key at index `ORDER/2 - 1` is promoted into the parent at `index`. -/
def btree_split_child (parent : BTreeNode) (index : Nat) : BTreeNode :=
  let child := parent.children.getD index default
  let new_child : BTreeNode :=
    .mk child.is_leaf
      ((child.keys.drop (ORDER / 2)).take (ORDER / 2 - 1))
      (if child.is_leaf then [] else
        (child.children.drop (ORDER / 2)).take (ORDER / 2))
  let child' : BTreeNode :=
    .mk child.is_leaf
      (child.keys.take (ORDER / 2 - 1))
      (if child.is_leaf then child.children else
        child.children.take (ORDER / 2))
  let promoted := child.keys.getD (ORDER / 2 - 1) default
  .mk parent.is_leaf
    (parent.keys.take index ++ promoted :: parent.keys.drop index)
    (parent.children.take index ++ child' :: new_child ::
      parent.children.drop (index + 1))

/-- The slot at which `btree_insert_non_full` places a new key in a leaf:
the C loop walks from the right end shifting every key greater than `key`,
so the insertion point is just after the rightmost slot whose key is
`≤ key`. -/
def insPos (ks : List KeyValue) (key : Int) : Nat :=
  ks.length - (ks.reverse.takeWhile (fun kv => key < kv.key)).length

/-- `btree_insert_non_full` from `btree.c`, with an explicit recursion-depth
argument (see the file comment).  In a leaf the pair is stored at `insPos`
with a fresh copy of the first `data_size` bytes of `data` (the `memcpy`).
In an internal node the child that will receive the key is split first when
it is full, then descended into. -/
def btree_insert_non_full (fuel : Nat) (n : BTreeNode) (key : Int)
    (data : List Nat) (data_size : Nat) : BTreeNode :=
  match fuel with
  | 0 => n
  | fuel + 1 =>
    match n with
    | .mk l ks cs =>
      if l then
        let kv : KeyValue :=
          { key := key, value := { data := some (data.take data_size), data_size := data_size } }
        let p := insPos ks key
        .mk l (ks.take p ++ kv :: ks.drop p) cs
      else
        let i := insPos ks key
        if (cs.getD i default).keys.length = ORDER - 1 then
          let n' := btree_split_child (.mk l ks cs) i
          let i' := if key > (n'.keys.getD i default).key then i + 1 else i
          let c' := btree_insert_non_full fuel (n'.children.getD i' default) key data data_size
          .mk n'.is_leaf n'.keys (n'.children.set i' c')
        else
          let c' := btree_insert_non_full fuel (cs.getD i default) key data data_size
          .mk l ks (cs.set i c')

/-- `btree_insert` from `btree.c`: materialise a leaf root on the empty
tree; split a full root, growing the height by one, before descending;
otherwise descend directly.  The fuel handed to `btree_insert_non_full` is
the height of the (old) root, which bounds the depth of the descent. -/
def btree_insert (t : BTree) (key : Int) (data : List Nat)
    (data_size : Nat) : BTree :=
  match t.root with
  | none =>
    { t with root := some (.mk true
        [{ key := key, value := { data := some (data.take data_size), data_size := data_size } }] []) }
  | some r =>
    if r.keys.length = ORDER - 1 then
      let new_root : BTreeNode := .mk false [] [r]
      let n' := btree_split_child new_root 0
      let i := if (n'.keys.getD 0 default).key < key then 1 else 0
      let c' := btree_insert_non_full (height r) (n'.children.getD i default) key data data_size
      { t with root := some (.mk n'.is_leaf n'.keys (n'.children.set i c')) }
    else
      { t with root := some (btree_insert_non_full (height r) r key data data_size) }

/-- Clear a slot's payload pointer (`value.data = NULL` in the source);
the recorded size stays. -/
def clearValue (kv : KeyValue) : KeyValue :=
  { key := kv.key, value := { data := none, data_size := kv.value.data_size } }

/-- Null out the payload pointer of the last occupied slot (done before the
predecessor's value handle is moved up in `btree_remove_from_non_leaf`). -/
def clearLastValue : List KeyValue → List KeyValue
  | [] => []
  | ks => ks.dropLast ++ [clearValue (ks.getLastD default)]

/-- Null out the payload pointer of the first slot (successor case). -/
def clearHeadValue : List KeyValue → List KeyValue
  | [] => []
  | kv :: ks => clearValue kv :: ks

/-- The loop of `btree_get_predecessor`: follow the last child down to a
leaf and return its last key.  `fuel` bounds the walk (the callers pass a
bound covering the subtree height). -/
def btree_rightmost_key : Nat → BTreeNode → Int
  | 0, _ => 0
  | fuel + 1, n =>
    if n.is_leaf then (n.keys.getLastD default).key
    else btree_rightmost_key fuel (n.children.getLastD default)

/-- The loop of `btree_get_successor`: follow the first child down to a
leaf and return its first key. -/
def btree_leftmost_key : Nat → BTreeNode → Int
  | 0, _ => 0
  | fuel + 1, n =>
    if n.is_leaf then (n.keys.headD default).key
    else btree_leftmost_key fuel (n.children.headD default)

/-- `btree_get_predecessor(node, idx)`: rightmost key of child `idx`. -/
def btree_get_predecessor (fuel : Nat) (n : BTreeNode) (idx : Nat) : Int :=
  btree_rightmost_key fuel (n.children.getD idx default)

/-- `btree_get_successor(node, idx)`: leftmost key of child `idx + 1`. -/
def btree_get_successor (fuel : Nat) (n : BTreeNode) (idx : Nat) : Int :=
  btree_leftmost_key fuel (n.children.getD (idx + 1) default)

/-- `btree_remove_from_leaf`: free the payload and shift the later slots
one place left. -/
def btree_remove_from_leaf (n : BTreeNode) (idx : Nat) : BTreeNode :=
  .mk n.is_leaf (n.keys.take idx ++ n.keys.drop (idx + 1)) n.children

/-- `btree_borrow_from_prev(node, idx)`: the separator `keys[idx-1]` moves
down to the front of child `idx` (with, for internal nodes, the previous
sibling's last child), and the previous sibling's last key moves up into
the parent slot. -/
def btree_borrow_from_prev (n : BTreeNode) (idx : Nat) : BTreeNode :=
  let child := n.children.getD idx default
  let sibling := n.children.getD (idx - 1) default
  let child' : BTreeNode :=
    .mk child.is_leaf (n.keys.getD (idx - 1) default :: child.keys)
      (if child.is_leaf then child.children
       else sibling.children.getLastD default :: child.children)
  let sibling' : BTreeNode :=
    .mk sibling.is_leaf sibling.keys.dropLast
      (if child.is_leaf then sibling.children else sibling.children.dropLast)
  .mk n.is_leaf
    (n.keys.set (idx - 1) (sibling.keys.getLastD default))
    ((n.children.set (idx - 1) sibling').set idx child')

/-- `btree_borrow_from_next(node, idx)`: the separator `keys[idx]` moves
down to the end of child `idx` (with, for internal nodes, the next
sibling's first child), and the next sibling's first key moves up. -/
def btree_borrow_from_next (n : BTreeNode) (idx : Nat) : BTreeNode :=
  let child := n.children.getD idx default
  let sibling := n.children.getD (idx + 1) default
  let child' : BTreeNode :=
    .mk child.is_leaf (child.keys ++ [n.keys.getD idx default])
      (if child.is_leaf then child.children
       else child.children ++ [sibling.children.headD default])
  let sibling' : BTreeNode :=
    .mk sibling.is_leaf (sibling.keys.drop 1)
      (if sibling.is_leaf then sibling.children else sibling.children.drop 1)
  .mk n.is_leaf
    (n.keys.set idx (sibling.keys.headD default))
    ((n.children.set idx child').set (idx + 1) sibling')

/-- `btree_merge_children(node, idx)`: child `idx` absorbs the separator
`keys[idx]` and the entire child `idx + 1`, which is freed; the parent
loses one key and one child. -/
def btree_merge_children (n : BTreeNode) (idx : Nat) : BTreeNode :=
  let child := n.children.getD idx default
  let sibling := n.children.getD (idx + 1) default
  let merged : BTreeNode :=
    .mk child.is_leaf (child.keys ++ n.keys.getD idx default :: sibling.keys)
      (if child.is_leaf then child.children
       else child.children ++ sibling.children)
  .mk n.is_leaf
    (n.keys.take idx ++ n.keys.drop (idx + 1))
    (n.children.take idx ++ merged :: n.children.drop (idx + 2))

/-- `btree_fill_child(node, idx)`: borrow from the previous sibling when it
has at least `ORDER/2` keys, else from the next, else merge child `idx`
with a sibling (with the previous one when `idx` is the last child). -/
def btree_fill_child (n : BTreeNode) (idx : Nat) : BTreeNode :=
  if idx ≠ 0 ∧ (n.children.getD (idx - 1) default).keys.length ≥ ORDER / 2 then
    btree_borrow_from_prev n idx
  else if idx ≠ n.keys.length ∧
      (n.children.getD (idx + 1) default).keys.length ≥ ORDER / 2 then
    btree_borrow_from_next n idx
  else if idx = n.keys.length then
    btree_merge_children n (idx - 1)
  else
    btree_merge_children n idx

mutual

/-- `btree_delete_from_node` from `btree.c`, with the recursion-depth
argument `fuel` (see the file comment).  Scan for the first slot with
`keys[idx] ≥ key`; on an exact hit remove here (leaf case) or via
`btree_remove_from_non_leaf`; otherwise, on a leaf report `false`, and on
an internal node first fill child `idx` when it has fewer than `ORDER/2`
keys, then recurse into child `idx` — or child `idx - 1` when the fill
merged away the last child (`flag && idx > node->num_keys`).  Returns the
`bool` result together with the updated node. -/
def btree_delete_from_node : Nat → BTreeNode → Int → Bool × BTreeNode
  | 0, n, _ => (false, n)
  | fuel + 1, n, key =>
    let idx := (n.keys.takeWhile (fun kv => kv.key < key)).length
    if idx < n.keys.length ∧ (n.keys.getD idx default).key = key then
      if n.is_leaf then (true, btree_remove_from_leaf n idx)
      else (true, btree_remove_from_non_leaf fuel n idx)
    else if n.is_leaf then (false, n)
    else
      let flag := idx = n.keys.length
      let n₁ := if (n.children.getD idx default).keys.length < ORDER / 2 then
          btree_fill_child n idx
        else n
      let idx' := if flag ∧ idx > n₁.keys.length then idx - 1 else idx
      let res := btree_delete_from_node fuel (n₁.children.getD idx' default) key
      (res.1, .mk n₁.is_leaf n₁.keys (n₁.children.set idx' res.2))

/-- `btree_remove_from_non_leaf` from `btree.c`.  Case 2a: the left child
has at least `ORDER/2` keys — replace the slot with the in-order
predecessor key and the left child's last value handle (nulling the
child's slot), then recursively delete the predecessor key from the left
child.  Case 2b: symmetric with the successor and the right child.
Case 2c: merge the two children around the separator and recursively
delete the key from the merged child. -/
def btree_remove_from_non_leaf : Nat → BTreeNode → Nat → BTreeNode
  | 0, n, _ => n
  | fuel + 1, n, idx =>
    let key := (n.keys.getD idx default).key
    if (n.children.getD idx default).keys.length ≥ ORDER / 2 then
      let child := n.children.getD idx default
      let pred := btree_rightmost_key (fuel + 1) child
      let child₁ : BTreeNode := .mk child.is_leaf (clearLastValue child.keys)
        child.children
      let res := btree_delete_from_node fuel child₁ pred
      .mk n.is_leaf
        (n.keys.set idx { key := pred, value := (child.keys.getLastD default).value })
        (n.children.set idx res.2)
    else if (n.children.getD (idx + 1) default).keys.length ≥ ORDER / 2 then
      let sibling := n.children.getD (idx + 1) default
      let succ := btree_leftmost_key (fuel + 1) sibling
      let sibling₁ : BTreeNode := .mk sibling.is_leaf (clearHeadValue sibling.keys)
        sibling.children
      let res := btree_delete_from_node fuel sibling₁ succ
      .mk n.is_leaf
        (n.keys.set idx { key := succ, value := (sibling.keys.headD default).value })
        (n.children.set (idx + 1) res.2)
    else
      let n₁ := btree_merge_children n idx
      let res := btree_delete_from_node fuel (n₁.children.getD idx default) key
      .mk n₁.is_leaf n₁.keys (n₁.children.set idx res.2)

end

/-- `btree_delete` from `btree.c`: `false` on a `NULL` tree or root;
otherwise delete from the root and, when the root is left without keys,
replace it by its first child (or make the tree empty when it was a
leaf), freeing the old root.  The fuel `height r + 1` covers the descent
including the extra step the internal-hit path takes through
`btree_remove_from_non_leaf`. -/
def btree_delete (t : BTree) (key : Int) : Bool × BTree :=
  match t.root with
  | none => (false, t)
  | some r =>
    let res := btree_delete_from_node (height r + 1) r key
    if res.2.keys.length = 0 then
      if res.2.is_leaf then (res.1, { t with root := none })
      else (res.1, { t with root := some (res.2.children.getD 0 default) })
    else (res.1, { t with root := some res.2 })

/-! ## Well-formedness predicates for B-trees

`nodeWF` captures the structural part of the B-tree node invariant the
source maintains: occupancy between `1` and `ORDER - 1`, a leaf has no
children, an internal node has `num_keys + 1` children that all sit on the
same level kind (all leaves or all internal), and all children are
themselves well formed.  `WF` adds that the in-order key sequence is
strictly increasing (the search-tree property).  The theorems about
`btree_insert`/`btree_delete` quantify over such trees. -/

/-- All nodes of a list have the same height (the B-tree balance
condition localised to one sibling list: every child subtree reaches the
same depth, so in particular all siblings agree on `is_leaf`). -/
def heightsUniform (cs : List BTreeNode) : Bool :=
  cs.all (fun c => height c == height.heightList cs)

mutual

/-- Structural node invariant (see the section comment). -/
def nodeWF : BTreeNode → Bool
  | .mk l ks cs =>
    decide (1 ≤ ks.length) && decide (ks.length ≤ ORDER - 1) &&
    (if l then cs.isEmpty
     else decide (cs.length = ks.length + 1) && heightsUniform cs && nodesWF cs)

/-- `nodeWF` for every node of a list. -/
def nodesWF : List BTreeNode → Bool
  | [] => true
  | c :: cs => nodeWF c && nodesWF cs

end

mutual

/-- The weaker structural invariant the insert path needs: occupancy at
most `ORDER - 1` (possibly zero keys, as in the fresh root created when a
full root splits), leaves childless, internal nodes with `num_keys + 1`
children, recursively. -/
def insWF : BTreeNode → Bool
  | .mk l ks cs =>
    decide (ks.length ≤ ORDER - 1) &&
    (if l then cs.isEmpty
     else decide (cs.length = ks.length + 1) && insWFList cs)

/-- `insWF` for every node of a list. -/
def insWFList : List BTreeNode → Bool
  | [] => true
  | c :: cs => insWF c && insWFList cs

end

/-- Strictly increasing key list. -/
def sortedKeys : List Int → Bool
  | [] => true
  | [_] => true
  | a :: b :: rest => decide (a < b) && sortedKeys (b :: rest)

/-- Full node invariant: structure plus strictly sorted in-order keys. -/
def WF (n : BTreeNode) : Bool :=
  nodeWF n && sortedKeys ((toList n).map (·.key))

/-- Tree invariant: an absent root, or a well-formed root. -/
def WFTree (t : BTree) : Bool :=
  match t.root with
  | none => true
  | some r => WF r

/-- Keys-first interleaving: the tail of an in-order sequence after the
first child has been peeled off (`key 0, child 1, key 1, child 2, …`).
Used to decompose `toList.interleave` around one child position. -/
def interleaveK : List KeyValue → List BTreeNode → List KeyValue
  | [], _ => []
  | _ :: _, [] => []
  | kv :: ks, c :: cs => kv :: (toList c ++ interleaveK ks cs)

/-- Key–value contents of a whole tree, in order (empty for an absent
root). -/
def btree_contents (t : BTree) : List KeyValue :=
  match t.root with
  | none => []
  | some r => toList r

/-! ## MapReduce engine (`mapreduce.c`)

The engine is embedded sequentially.  The C program splits the input into
`W` contiguous ascending slices (worker `w` owns
`[w·⌊N/W⌋, (w+1)·⌊N/W⌋)`, the last worker absorbing the remainder) and the
partitions into contiguous slabs likewise; the concatenation of the slices
in worker order is exactly the input in order, and every partition append
happens under that partition's mutex.  The embedding therefore models the
canonical schedule in which workers run one after the other, which
processes the input pairs in order.  Thread spawning itself is recorded as
a count in the result of `run_mapreduce`. -/

/-- `#define MAX_THREADS 16`. -/
def MAX_THREADS : Nat := 16

/-- `#define MAX_KEY_LENGTH 128`. -/
def MAX_KEY_LENGTH : Nat := 128

/-- `#define MAX_VALUE_LENGTH 1024`. -/
def MAX_VALUE_LENGTH : Nat := 1024

/-- `#define INITIAL_BUCKET_SIZE 64`. -/
def INITIAL_BUCKET_SIZE : Nat := 64

/-- `#define PARTITIONS 16`. -/
def PARTITIONS : Nat := 16

/-- A C string modelled as its byte content (without the terminating NUL;
bytes are nonzero in a well-formed C string). -/
abbrev CStr := List Nat

/-- `KeyValue` from `mapreduce.c`: two bounded strings. -/
structure MRKeyValue where
  key : CStr
  value : CStr
  deriving DecidableEq, Repr, Inhabited

/-- `KeyValueList` from `mapreduce.c`.  `data` is the occupied prefix
(`size = data.length`); `capacity` is carried along as in the source. -/
structure KeyValueList where
  data : List MRKeyValue
  capacity : Nat
  deriving DecidableEq, Repr, Inhabited

/-- `create_kv_list`: empty list with the initial capacity. -/
def create_kv_list : KeyValueList :=
  { data := [], capacity := INITIAL_BUCKET_SIZE }

/-- `add_kv_pair(list, key, value)` from `mapreduce.c`.  A `NULL` `list`,
`key` or `value` returns immediately without touching the list and without
reporting anything.  Otherwise capacity is doubled when full and the pair
is appended, both strings truncated by `strncpy` to their bounded maxima
(`MAX_KEY_LENGTH - 1` and `MAX_VALUE_LENGTH - 1` bytes) and
NUL-terminated. -/
def add_kv_pair (list : Option KeyValueList) (key value : Option CStr) :
    Option KeyValueList :=
  match list, key, value with
  | some l, some k, some v =>
    some { data := l.data ++
             [{ key := k.take (MAX_KEY_LENGTH - 1),
                value := v.take (MAX_VALUE_LENGTH - 1) }]
           capacity := if l.data.length ≥ l.capacity then l.capacity * 2
             else l.capacity }
  | _, _, _ => list

/-- The non-`NULL` instantiation of `add_kv_pair`, used by every internal
call site of the source (which always passes live pointers). -/
def kv_append (l : KeyValueList) (k v : CStr) : KeyValueList :=
  (add_kv_pair (some l) (some k) (some v)).getD l

/-- `hash_string` from `mapreduce.c`: djb2-style,
`hash = ((hash << 5) + hash) + c` over the bytes of the string in unsigned
32-bit (wrapping) arithmetic, starting from `5381`. -/
def hash_string (s : CStr) : Nat :=
  s.foldl (fun hash c => (((hash <<< 5) % 2 ^ 32 + hash) % 2 ^ 32 + c) % 2 ^ 32) 5381

/-- `strcmp` on byte strings: difference of the first differing bytes
(a missing byte compares as the NUL terminator `0`). -/
def strcmp : CStr → CStr → Int
  | [], [] => 0
  | [], b :: _ => 0 - (b : Int)
  | a :: _, [] => (a : Int)
  | a :: as, b :: bs => if a = b then strcmp as bs else (a : Int) - (b : Int)

/-- `compare_keys` from `mapreduce.c`: `strcmp` on the keys. -/
def compare_keys (a b : MRKeyValue) : Int := strcmp a.key b.key

/-- `sort_kv_list`: sort the pairs by key (`qsort` with `compare_keys`;
the source's `qsort` is unstable, the embedding fixes the merge-sort
order). -/
def sort_kv_list (l : KeyValueList) : KeyValueList :=
  { l with data := l.data.mergeSort (fun a b => decide (compare_keys a b ≤ 0)) }

/-- A user map callback, `void map_fn(char* key, char* value,
KeyValueList* output)`: its effect is the sequence of `(key, value)` pairs
it emits into `output` through `add_kv_pair`. -/
def MapFn : Type := CStr → CStr → List (CStr × CStr)

/-- A user reduce callback, `void reduce_fn(char* key, KeyValueList*
values, KeyValueList* output)`: it receives the grouping list (whose pairs
carry `""` keys and the grouped values) and its effect is the emitted pair
sequence. -/
def ReduceFn : Type := CStr → List MRKeyValue → List (CStr × CStr)

/-- `MapReduceContext` from `mapreduce.c` (the mutexes, the barrier and the
thread handles carry no data and are represented by the sequential
schedule; `num_threads` is kept). -/
structure MapReduceContext where
  input : KeyValueList
  output : KeyValueList
  partitions : List KeyValueList
  map_function : MapFn
  reduce_function : ReduceFn
  num_threads : Nat

/-- Outcome of `init_mapreduce`: the source either prints and
`exit(EXIT_FAILURE)`s — `fatalExit` — or returns normally with the context
initialised (`void` return; no error value exists). -/
inductive InitResult where
  | fatalExit
  | ok (ctx : MapReduceContext)

def InitResult.isOk : InitResult → Bool
  | .ok _ => true
  | .fatalExit => false

def InitResult.numThreadsD : InitResult → Nat
  | .ok c => c.num_threads
  | .fatalExit => 0

/-- `init_mapreduce(ctx, num_threads, map_fn, reduce_fn)` from
`mapreduce.c`.  A `NULL` `ctx`, `map_fn` or `reduce_fn` terminates the
process (`exit(EXIT_FAILURE)`).  Otherwise `num_threads` outside
`(0, MAX_THREADS]` is silently replaced by `MAX_THREADS`, the input,
output and `PARTITIONS` partition lists are created empty, and the
function returns normally: no error value is ever produced. -/
def init_mapreduce (ctx_nonnull : Bool) (num_threads : Int)
    (map_fn : Option MapFn) (reduce_fn : Option ReduceFn) : InitResult :=
  match ctx_nonnull, map_fn, reduce_fn with
  | true, some mf, some rf =>
    .ok { input := create_kv_list
          output := create_kv_list
          partitions := List.replicate PARTITIONS create_kv_list
          map_function := mf
          reduce_function := rf
          num_threads :=
            if 0 < num_threads ∧ num_threads ≤ (MAX_THREADS : Int) then
              num_threads.toNat
            else MAX_THREADS }
  | _, _, _ => .fatalExit

/-- The thread-local `map_output` list a worker builds for one input pair:
the emitted pairs pushed through `add_kv_pair` into a fresh list. -/
def emit_list (mf : MapFn) (k v : CStr) : KeyValueList :=
  (mf k v).foldl (fun out p => kv_append out p.1 p.2) create_kv_list

/-- Routing one emitted pair in `run_map_phase`:
`partition_index = hash_string(key) % PARTITIONS`, then append to that
partition under its lock. -/
def route_pair (parts : List KeyValueList) (k v : CStr) :
    List KeyValueList :=
  let p := hash_string k % PARTITIONS
  parts.set p (kv_append (parts.getD p create_kv_list) k v)

/-- Routing a whole emitted sequence in order. -/
def routeAll (parts : List KeyValueList) (pairs : List MRKeyValue) :
    List KeyValueList :=
  pairs.foldl (fun ps kv => route_pair ps kv.key kv.value) parts

/-- `run_map_phase` from `mapreduce.c`, sequentialised (see the section
comment): every input pair, in input order, is mapped through the user
callback into a thread-local list, and each resulting pair is appended to
partition `hash_string(key) % PARTITIONS`. -/
def run_map_phase (ctx : MapReduceContext) : MapReduceContext :=
  { ctx with partitions :=
      (ctx.input.data.foldl
        (fun parts inp =>
          routeAll parts (emit_list ctx.map_function inp.key inp.value).data)
        ctx.partitions) }

/-- The grouping list `values` built for one run of equal keys: pairs with
`""` keys carrying the values, pushed through `add_kv_pair`. -/
def collect_values (run : List MRKeyValue) : KeyValueList :=
  run.foldl (fun vals kv => kv_append vals [] kv.value) create_kv_list

/-- The scan of one sorted partition in `run_reduce_phase`: maximal runs of
`strcmp`-equal keys are grouped and handed to the reduce callback; the
emitted pairs are concatenated in order.  `fuel` bounds the recursion (the
call site passes the partition length, which suffices because each step
consumes at least one pair). -/
def reduce_chunks (rf : ReduceFn) : Nat → List MRKeyValue → List (CStr × CStr)
  | 0, _ => []
  | _, [] => []
  | fuel + 1, kv :: rest =>
    let run := rest.takeWhile (fun x => strcmp x.key kv.key = 0)
    rf kv.key (collect_values (kv :: run)).data ++
      reduce_chunks rf fuel (rest.dropWhile (fun x => strcmp x.key kv.key = 0))

/-- `run_reduce_phase` from `mapreduce.c`, sequentialised: partitions are
processed in index order (the workers' contiguous slabs concatenate to
that order), and all reducer emissions are appended to the shared output
under its lock. -/
def run_reduce_phase (ctx : MapReduceContext) : MapReduceContext :=
  { ctx with output :=
      (ctx.partitions.foldl
        (fun out part =>
          (reduce_chunks ctx.reduce_function part.data.length part.data).foldl
            (fun o p => kv_append o p.1 p.2) out)
        ctx.output) }

/-- Outcome of `run_mapreduce`: the `int` return value, the final context,
and how many worker threads were created. -/
structure RunResult where
  ret : Int
  ctx : MapReduceContext
  workers_spawned : Nat

/-- `run_mapreduce` from `mapreduce.c`.  An empty input returns `-1`
("No input data for MapReduce") before any `pthread_create`; otherwise the
`num_threads` workers are spawned and the map phase, the single-threaded
partition sort, and the reduce phase run to completion, returning `0`.
(The `!ctx` guard for a `NULL` context, which also returns `-1`, is
represented by the caller having a context at all.) -/
def run_mapreduce (ctx : MapReduceContext) : RunResult :=
  if ctx.input.data.length = 0 then
    { ret := -1, ctx := ctx, workers_spawned := 0 }
  else
    let c1 := run_map_phase ctx
    let c2 := { c1 with partitions := c1.partitions.map sort_kv_list }
    let c3 := run_reduce_phase c2
    { ret := 0, ctx := c3, workers_spawned := ctx.num_threads }

/-- All pairs the map phase emits, in the canonical processing order,
before truncation by the partition append. -/
def allEmitted (ctx : MapReduceContext) : List MRKeyValue :=
  ctx.input.data.flatMap
    (fun inp => (emit_list ctx.map_function inp.key inp.value).data)

/-! ## Concrete scenarios for the B-tree claims -/

/-- Insert a list of `(key, payload byte)` pairs into a fresh tree, each with
a one-byte dummy payload, as the B1 scenario prescribes. -/
def insertKeys (l : List (Int × Nat)) : BTree :=
  l.foldl (fun t kv => btree_insert t kv.1 [kv.2] 1) btree_create

/-- Scenario B1's insertion sequence `[10, 20, 5, 6, 12, 30, 7, 17]`, each
key paired with a distinguishable dummy payload. -/
def scenarioB1 : List (Int × Nat) :=
  [(10, 1), (20, 2), (5, 3), (6, 4), (12, 5), (30, 6), (7, 7), (17, 8)]

/-- The tree the source builds from scenario B1. -/
def tB1 : BTree := insertKeys scenarioB1

/-- The tree after the first five B1 inserts `[10, 20, 5, 6, 12]`. -/
def t5 : BTree := insertKeys [(10, 1), (20, 2), (5, 3), (6, 4), (12, 5)]

/-- A full leaf (`ORDER - 1 = 4` keys `0,1,2,3`) with distinct payloads,
sitting under a fresh parent, exactly the configuration
`btree_insert` creates before calling `btree_split_child`. -/
def fullLeaf : BTreeNode :=
  .mk true
    [ { key := 0, value := { data := some [100], data_size := 1 } },
      { key := 1, value := { data := some [101], data_size := 1 } },
      { key := 2, value := { data := some [102], data_size := 1 } },
      { key := 3, value := { data := some [103], data_size := 1 } } ] []

/-- The result of splitting `fullLeaf` under its parent. -/
def splitEx : BTreeNode := btree_split_child (.mk false [] [fullLeaf]) 0

/-- A trivial map callback (emits nothing), for concrete instantiations. -/
def mf0 : MapFn := fun _ _ => []

/-- A trivial reduce callback (emits nothing), for concrete
instantiations. -/
def rf0 : ReduceFn := fun _ _ => []

/-- A map callback that emits its input pair and a fixed `("a", "1")`
pair, for concrete instantiations. -/
def mf1 : MapFn := fun k v => [(k, v), ([97], [49])]

/-- A freshly configured context with no ingested input. -/
def ctx0 : MapReduceContext :=
  { input := create_kv_list
    output := create_kv_list
    partitions := List.replicate PARTITIONS create_kv_list
    map_function := mf0
    reduce_function := rf0
    num_threads := 4 }

/-- A configured context with two input lines, for the C8 witness. -/
def ctx8 : MapReduceContext :=
  { ctx0 with
    map_function := mf1
    input := { data := [ { key := [48], value := [104, 105] },
                         { key := [49], value := [104, 111] } ]
               capacity := INITIAL_BUCKET_SIZE } }

@[simp] theorem BTreeNode.is_leaf_mk (l : Bool) (ks : List KeyValue)
    (cs : List BTreeNode) : (BTreeNode.mk l ks cs).is_leaf = l := rfl

@[simp] theorem BTreeNode.keys_mk (l : Bool) (ks : List KeyValue)
    (cs : List BTreeNode) : (BTreeNode.mk l ks cs).keys = ks := rfl

@[simp] theorem BTreeNode.children_mk (l : Bool) (ks : List KeyValue)
    (cs : List BTreeNode) : (BTreeNode.mk l ks cs).children = cs := rfl

/-- C1 (code bug).  Scenario B1 on the source: inserting
`[10, 20, 5, 6, 12, 30, 7, 17]` yields an in-order traversal of
`[5, 6, 7, 10, 12, 17]` — the keys `20` and `30` are silently dropped by
`btree_split_child` (which uses `ORDER / 2 = 2` where the minimum degree
`⌈ORDER/2⌉ = 3` is required) — and the root holds the two keys `[6, 10]`,
not exactly the one key `10` the claim states. -/
theorem C1_scenarioB1_actual_behavior :
    btree_traverse tB1 = [5, 6, 7, 10, 12, 17] ∧
    (tB1.root.getD default).keys.map (·.key) = [6, 10] ∧
    btree_traverse tB1 ≠ [5, 6, 7, 10, 12, 17, 20, 30] := by
  refine ⟨by decide, by decide, by decide⟩

/-- C2 (code bug).  Splitting a full node (4 keys `0,1,2,3`) keeps only key
`0` in the left half (the claimed policy keeps `[0, ⌈5/2⌉−1) = {0, 1}`),
promotes key `1` (the claim promotes index `⌈5/2⌉−1 = 2`), keeps only key
`2` in the right half (the claim keeps `[3, 4) = {3}`), and loses key `3`
and its payload entirely: the in-order contents of the split result are
`[0, 1, 2]`. -/
theorem C2_split_actual_behavior :
    (splitEx.children.getD 0 default).keys.map (·.key) = [0] ∧
    splitEx.keys.map (·.key) = [1] ∧
    (splitEx.children.getD 1 default).keys.map (·.key) = [2] ∧
    (toList splitEx).map (·.key) = [0, 1, 2] ∧
    fullLeaf.keys.map (·.key) = [0, 1, 2, 3] := by
  refine ⟨by decide, by decide, by decide, by decide, by decide⟩

/-- C3 (code bug).  After the operation sequence
`insert 10; insert 20; insert 5; insert 6; insert 12` the root is internal
and its first child holds exactly 1 key — fewer than
`t − 1 = min_degree − 1 = 2` — so the occupancy invariant for reachable
non-root nodes is already violated by a plain insert sequence. -/
theorem C3_invariant_violated_after_inserts :
    (t5.root.getD default).is_leaf = false ∧
    ((t5.root.getD default).children.getD 0 default).keys.length = 1 ∧
    t5.min_degree - 1 = 2 := by
  refine ⟨by decide, by decide, by decide⟩

/-- C4 (code bug).  In scenario B1 the key `20` is inserted (with payload
byte `2`) and never deleted, yet `btree_search` returns `NULL` for it
afterwards: the split dropped it from the tree. -/
theorem C4_search_loses_inserted_key :
    btree_search tB1 20 = none ∧ (20, 2) ∈ scenarioB1 := by
  refine ⟨by decide, by decide⟩

/-! ## MapReduce claims -/

/-- C6 (counterexample).  Concrete invalid configurations: `W = 0` and
`W = 17` are silently accepted (`init_mapreduce` returns normally, with
`num_threads` clamped to `MAX_THREADS = 16`), and a missing map callback
terminates the process — in no case is a configuration error returned to
the caller. -/
theorem C6_counterexample :
    (init_mapreduce true 0 (some mf0) (some rf0)).isOk = true ∧
    (init_mapreduce true 0 (some mf0) (some rf0)).numThreadsD = 16 ∧
    (init_mapreduce true 17 (some mf0) (some rf0)).isOk = true ∧
    (init_mapreduce true 17 (some mf0) (some rf0)).numThreadsD = 16 ∧
    init_mapreduce true 4 none (some rf0) = .fatalExit := by
  refine ⟨rfl, rfl, rfl, rfl, rfl⟩

/-- C6 (amended).  `init_mapreduce` never returns a configuration error:
with a `NULL` context or a missing callback it terminates the process
(`exit(EXIT_FAILURE)`) before any worker exists; with both callbacks
present it returns normally for every `W`, silently clamping `W` outside
`[1, MAX_THREADS]` to `MAX_THREADS = 16`. -/
theorem C6_amended (w : Int) (mf : MapFn) (rf : ReduceFn)
    (mfo : Option MapFn) (rfo : Option ReduceFn) :
    (mfo = none ∨ rfo = none → init_mapreduce true w mfo rfo = .fatalExit) ∧
    init_mapreduce false w mfo rfo = .fatalExit ∧
    (init_mapreduce true w (some mf) (some rf)).isOk = true ∧
    (init_mapreduce true w (some mf) (some rf)).numThreadsD =
      (if 0 < w ∧ w ≤ 16 then w.toNat else 16) := by
  refine ⟨?_, ?_, rfl, rfl⟩
  · rintro (rfl | rfl)
    · cases rfo <;> rfl
    · cases mfo <;> rfl
  · cases mfo <;> cases rfo <;> rfl

/-- Witness for `C6_amended` at `w = 0`. -/
theorem C6_amended_witness :
    init_mapreduce true 0 none (some rf0) = .fatalExit ∧
    init_mapreduce false 0 none (some rf0) = .fatalExit ∧
    (init_mapreduce true 0 (some mf0) (some rf0)).isOk = true ∧
    (init_mapreduce true 0 (some mf0) (some rf0)).numThreadsD =
      (if (0 : Int) < 0 ∧ (0 : Int) ≤ 16 then (0 : Int).toNat else 16) :=
  ⟨(C6_amended 0 mf0 rf0 none (some rf0)).1 (Or.inl rfl),
   (C6_amended 0 mf0 rf0 none (some rf0)).2.1,
   (C6_amended 0 mf0 rf0 none (some rf0)).2.2.1,
   (C6_amended 0 mf0 rf0 none (some rf0)).2.2.2⟩

/-- C7.  `run_mapreduce` on a context with an empty input list returns the
error value `-1` with the context untouched and zero workers spawned; in
particular the output list (empty on a freshly configured context) stays
empty. -/
theorem C7_empty_input_no_workers (ctx : MapReduceContext)
    (h : ctx.input.data = []) :
    run_mapreduce ctx = { ret := -1, ctx := ctx, workers_spawned := 0 } ∧
    (ctx.output.data = [] → ((run_mapreduce ctx).ctx.output.data = [])) := by
  have hlen : ctx.input.data.length = 0 := by simp [h]
  constructor
  · simp [run_mapreduce, hlen]
  · intro h2
    simp [run_mapreduce, hlen, h2]

/-- Witness for `C7_empty_input_no_workers` on a freshly configured
context. -/
theorem C7_witness :
    run_mapreduce ctx0 = { ret := -1, ctx := ctx0, workers_spawned := 0 } ∧
    (run_mapreduce ctx0).ctx.output.data = [] :=
  ⟨(C7_empty_input_no_workers ctx0 rfl).1,
   (C7_empty_input_no_workers ctx0 rfl).2 rfl⟩

theorem kv_append_data (l : KeyValueList) (k v : CStr) :
    (kv_append l k v).data =
      l.data ++ [{ key := k.take (MAX_KEY_LENGTH - 1),
                   value := v.take (MAX_VALUE_LENGTH - 1) }] := rfl

theorem getD_set_self {α : Type} (l : List α) (i : Nat) (a d : α)
    (h : i < l.length) : (l.set i a).getD i d = a := by
  simp [List.getD_eq_getElem?_getD, List.getElem?_set, h]

theorem getD_set_ne {α : Type} (l : List α) (i j : Nat) (a d : α)
    (hne : i ≠ j) : (l.set i a).getD j d = l.getD j d := by
  simp [List.getD_eq_getElem?_getD, List.getElem?_set, hne]

theorem route_pair_length (parts : List KeyValueList) (k v : CStr) :
    (route_pair parts k v).length = parts.length := by
  simp [route_pair]

theorem routeAll_length (pairs : List MRKeyValue)
    (parts : List KeyValueList) :
    (routeAll parts pairs).length = parts.length := by
  induction pairs generalizing parts with
  | nil => rfl
  | cons kv rest ih =>
    simp only [routeAll, List.foldl_cons] at *
    rw [ih, route_pair_length]

/-- Where one routed pair lands: partition `hash_string k % PARTITIONS`
receives the truncated pair, every other partition is untouched. -/
theorem route_pair_getD (parts : List KeyValueList) (k v : CStr) (p : Nat)
    (hlen : parts.length = PARTITIONS) :
    ((route_pair parts k v).getD p create_kv_list).data =
      (parts.getD p create_kv_list).data ++
        (if hash_string k % PARTITIONS = p then
          [{ key := k.take (MAX_KEY_LENGTH - 1),
             value := v.take (MAX_VALUE_LENGTH - 1) }]
        else []) := by
  have hq : hash_string k % PARTITIONS < parts.length := by
    rw [hlen]
    exact Nat.mod_lt _ (by decide)
  by_cases hp : hash_string k % PARTITIONS = p
  · subst hp
    simp only [route_pair]
    rw [getD_set_self _ _ _ _ hq, kv_append_data]
    simp
  · simp only [route_pair]
    rw [getD_set_ne _ _ _ _ _ hp]
    simp [hp]

/-- Routing a pair sequence appends, to each partition `p`, exactly the
truncations of the pairs whose key hashes to `p` modulo `PARTITIONS`, in
order. -/
theorem routeAll_getD (pairs : List MRKeyValue) (parts : List KeyValueList)
    (p : Nat) (hlen : parts.length = PARTITIONS) :
    ((routeAll parts pairs).getD p create_kv_list).data =
      (parts.getD p create_kv_list).data ++
        ((pairs.filter (fun kv => hash_string kv.key % PARTITIONS = p)).map
          (fun kv => { key := kv.key.take (MAX_KEY_LENGTH - 1),
                       value := kv.value.take (MAX_VALUE_LENGTH - 1) })) := by
  induction pairs generalizing parts with
  | nil => simp [routeAll]
  | cons kv rest ih =>
    have hlen' : (route_pair parts kv.key kv.value).length = PARTITIONS := by
      rw [route_pair_length, hlen]
    have step : routeAll parts (kv :: rest) =
        routeAll (route_pair parts kv.key kv.value) rest := rfl
    rw [step, ih _ hlen', route_pair_getD _ _ _ _ hlen, List.filter_cons]
    by_cases hp : hash_string kv.key % PARTITIONS = p
    · simp [hp, List.append_assoc]
    · simp [hp]

theorem routeAll_append (parts : List KeyValueList)
    (xs ys : List MRKeyValue) :
    routeAll parts (xs ++ ys) = routeAll (routeAll parts xs) ys :=
  List.foldl_append _ _ xs ys

theorem foldl_routeAll (mf : MapFn) (l : List MRKeyValue)
    (parts : List KeyValueList) :
    (l.foldl (fun ps inp => routeAll ps (emit_list mf inp.key inp.value).data)
      parts) =
      routeAll parts
        (l.flatMap fun inp => (emit_list mf inp.key inp.value).data) := by
  induction l generalizing parts with
  | nil => simp [routeAll]
  | cons inp rest ih =>
    rw [List.foldl_cons, List.flatMap_cons, routeAll_append, ih]

/-- The map phase processes the inputs in order, so its partitions are the
initial partitions with the whole emitted sequence routed through. -/
theorem run_map_phase_partitions (ctx : MapReduceContext) :
    (run_map_phase ctx).partitions = routeAll ctx.partitions (allEmitted ctx) := by
  show (ctx.input.data.foldl
      (fun parts inp =>
        routeAll parts (emit_list ctx.map_function inp.key inp.value).data)
      ctx.partitions) = _
  rw [allEmitted, foldl_routeAll]

/-- C8.  The routing hash is the djb2 multiplier — `h` starts at `5381`
and each byte `c` takes it to `h·33 + c` modulo `2^32` — and the map phase
sends every emitted pair to partition `hash_string(key) mod PARTITIONS`:
partition `p` of the map-phase result is the original partition `p`
followed by exactly the (truncated) emitted pairs whose key hashes to `p`,
in emission order. -/
theorem C8_hash_routing :
    (∀ s : CStr,
      hash_string s = s.foldl (fun h c => (h * 33 + c) % 2 ^ 32) 5381) ∧
    (∀ ctx : MapReduceContext, ∀ p : Nat,
      ctx.partitions.length = PARTITIONS →
      ((run_map_phase ctx).partitions.getD p create_kv_list).data =
        (ctx.partitions.getD p create_kv_list).data ++
          ((allEmitted ctx).filter
            (fun kv => hash_string kv.key % PARTITIONS = p)).map
            (fun kv => { key := kv.key.take (MAX_KEY_LENGTH - 1),
                         value := kv.value.take (MAX_VALUE_LENGTH - 1) })) := by
  constructor
  · intro s
    rw [hash_string]
    have step : ∀ h c : Nat,
        (((h <<< 5) % 2 ^ 32 + h) % 2 ^ 32 + c) % 2 ^ 32 =
          (h * 33 + c) % 2 ^ 32 := by
      intro h c
      rw [Nat.shiftLeft_eq, Nat.mod_add_mod, Nat.add_assoc, Nat.mod_add_mod]
      congr 1
      ring
    generalize (5381 : Nat) = a
    induction s generalizing a with
    | nil => rfl
    | cons c rest ih => rw [List.foldl_cons, List.foldl_cons, step, ih]
  · intro ctx p hlen
    rw [run_map_phase_partitions, routeAll_getD _ _ _ hlen]

/-- Witness for `C8_hash_routing`: the hash equation at the byte string
"ab", and the routing characterisation at partition `3` of the concrete
two-line context `ctx8`. -/
theorem C8_witness :
    (hash_string [97, 98] =
      [97, 98].foldl (fun h c => (h * 33 + c) % 2 ^ 32) 5381) ∧
    ((run_map_phase ctx8).partitions.getD 3 create_kv_list).data =
      (ctx8.partitions.getD 3 create_kv_list).data ++
        ((allEmitted ctx8).filter
          (fun kv => hash_string kv.key % PARTITIONS = 3)).map
          (fun kv => { key := kv.key.take (MAX_KEY_LENGTH - 1),
                       value := kv.value.take (MAX_VALUE_LENGTH - 1) }) :=
  ⟨C8_hash_routing.1 [97, 98], C8_hash_routing.2 ctx8 3 rfl⟩

/-- C10.  `add_kv_pair` with any `NULL` argument returns without modifying
the list and without reporting an error; with all three arguments live it
appends exactly one (truncated) pair, growing the list by one. -/
theorem C10_add_kv_pair_spec (l : Option KeyValueList) (k v : Option CStr)
    (l' : KeyValueList) (k' v' : CStr) :
    ((l = none ∨ k = none ∨ v = none) → add_kv_pair l k v = l) ∧
    add_kv_pair (some l') (some k') (some v') =
      some { data := l'.data ++
               [{ key := k'.take (MAX_KEY_LENGTH - 1),
                  value := v'.take (MAX_VALUE_LENGTH - 1) }]
             capacity := if l'.data.length ≥ l'.capacity then l'.capacity * 2
               else l'.capacity } ∧
    (add_kv_pair (some l') (some k') (some v')).map (fun r => r.data.length) =
      some (l'.data.length + 1) := by
  refine ⟨?_, rfl, by simp [add_kv_pair]⟩
  rintro (rfl | rfl | rfl)
  · rfl
  · cases l <;> cases v <;> rfl
  · cases l <;> cases k <;> rfl

/-- Witness for `C10_add_kv_pair_spec`: a `NULL` list is a no-op, and a
live append grows a fresh list to length one. -/
theorem C10_witness :
    add_kv_pair none (some [97]) (some [98]) = none ∧
    (add_kv_pair (some create_kv_list) (some [97]) (some [98])).map
      (fun r => r.data.length) = some (create_kv_list.data.length + 1) :=
  ⟨(C10_add_kv_pair_spec none (some [97]) (some [98])
      create_kv_list [97] [98]).1 (Or.inl rfl),
   (C10_add_kv_pair_spec none (some [97]) (some [98])
      create_kv_list [97] [98]).2.2⟩

/-! ## B-tree structural lemmas -/

theorem toList_leaf (ks : List KeyValue) (cs : List BTreeNode) :
    toList (.mk true ks cs) = ks := rfl

theorem toList_internal (ks : List KeyValue) (cs : List BTreeNode) :
    toList (.mk false ks cs) = toList.interleave cs ks := rfl

theorem interleave_cons_nil (c : BTreeNode) (cs : List BTreeNode) :
    toList.interleave (c :: cs) [] = toList c := rfl

theorem interleave_cons_cons (c : BTreeNode) (cs : List BTreeNode)
    (kv : KeyValue) (ks : List KeyValue) :
    toList.interleave (c :: cs) (kv :: ks) =
      toList c ++ kv :: toList.interleave cs ks := rfl

theorem interleave_append (cs₁ cs₂ : List BTreeNode)
    (ks₁ ks₂ : List KeyValue) (h : cs₁.length = ks₁.length) :
    toList.interleave (cs₁ ++ cs₂) (ks₁ ++ ks₂) =
      toList.interleave cs₁ ks₁ ++ toList.interleave cs₂ ks₂ := by
  induction cs₁ generalizing ks₁ with
  | nil =>
    have : ks₁ = [] := by
      cases ks₁ with
      | nil => rfl
      | cons a b => simp at h
    subst this
    rfl
  | cons c cs₁' ih =>
    cases ks₁ with
    | nil => simp at h
    | cons kv ks₁' =>
      simp only [List.cons_append, interleave_cons_cons]
      rw [ih _ (by simpa using h)]
      simp

theorem height_mk (l : Bool) (ks : List KeyValue) (cs : List BTreeNode) :
    height (.mk l ks cs) = 1 + height.heightList cs := rfl

theorem height_le_heightList {c : BTreeNode} {cs : List BTreeNode}
    (h : c ∈ cs) : height c ≤ height.heightList cs := by
  induction cs with
  | nil => cases h
  | cons c' cs' ih =>
    rcases List.mem_cons.mp h with rfl | h'
    · simp [height.heightList, Nat.le_max_left]
    · exact le_trans (ih h') (by simp [height.heightList, Nat.le_max_right])

theorem height_lt_of_mem {c : BTreeNode} {l : Bool} {ks : List KeyValue}
    {cs : List BTreeNode} (h : c ∈ cs) : height c < height (.mk l ks cs) := by
  have := height_le_heightList h
  rw [height_mk]
  omega

theorem heightList_sublist {cs' cs : List BTreeNode} (h : cs'.Sublist cs) :
    height.heightList cs' ≤ height.heightList cs := by
  induction h with
  | slnil => exact le_refl _
  | cons c _ ih =>
    simp only [height.heightList]
    exact le_trans ih (le_max_right _ _)
  | cons₂ c _ ih =>
    simp only [height.heightList]
    exact max_le_max (le_refl _) ih

theorem height_pos (n : BTreeNode) : 1 ≤ height n := by
  cases n
  rw [height_mk]
  omega

/-- Strong induction over the tree structure through the child lists. -/
theorem btree_ind (P : BTreeNode → Prop)
    (step : ∀ l ks cs, (∀ c ∈ cs, P c) → P (.mk l ks cs)) : ∀ n, P n := by
  have H : ∀ k n, height n = k → P n := by
    intro k
    induction k using Nat.strong_induction_on with
    | _ k ih =>
      intro n hn
      cases n with
      | mk l ks cs =>
        refine step l ks cs (fun c hc => ?_)
        exact ih (height c) (by rw [← hn]; exact height_lt_of_mem hc) c rfl
  exact fun n => H (height n) n rfl

theorem nodesWF_iff_forall (cs : List BTreeNode) :
    nodesWF cs = true ↔ ∀ c ∈ cs, nodeWF c = true := by
  induction cs with
  | nil => simp [nodesWF]
  | cons c cs' ih => simp [nodesWF, ih]

theorem insWFList_iff_forall (cs : List BTreeNode) :
    insWFList cs = true ↔ ∀ c ∈ cs, insWF c = true := by
  induction cs with
  | nil => simp [insWFList]
  | cons c cs' ih => simp [insWFList, ih]

theorem insWF_of_nodeWF : ∀ n, nodeWF n = true → insWF n = true := by
  refine btree_ind _ (fun l ks cs ih h => ?_)
  rw [nodeWF] at h
  rw [insWF]
  simp only [Bool.and_eq_true, decide_eq_true_eq] at h ⊢
  obtain ⟨⟨-, h2⟩, h3⟩ := h
  refine ⟨h2, ?_⟩
  cases l with
  | true => simpa using h3
  | false =>
    simp at h3 ⊢
    obtain ⟨⟨hlen, -⟩, hwf⟩ := h3
    refine ⟨hlen, ?_⟩
    rw [insWFList_iff_forall]
    intro c hc
    exact ih c hc (by rw [nodesWF_iff_forall] at hwf; exact hwf c hc)

theorem sortedKeys_eq_chain (l : List Int) :
    sortedKeys l = true ↔ l.Chain' (· < ·) := by
  induction l with
  | nil => simp [sortedKeys]
  | cons a rest ih =>
    cases rest with
    | nil => simp [show sortedKeys [a] = true from rfl]
    | cons b r =>
      rw [sortedKeys, List.chain'_cons, ← ih]
      simp

theorem sortedKeys_iff_pairwise (l : List Int) :
    sortedKeys l = true ↔ l.Pairwise (· < ·) := by
  rw [sortedKeys_eq_chain, List.chain'_iff_pairwise]

theorem WF_parts {n : BTreeNode} (h : WF n = true) :
    nodeWF n = true ∧ ((toList n).map (·.key)).Pairwise (· < ·) := by
  rw [WF, Bool.and_eq_true] at h
  exact ⟨h.1, (sortedKeys_iff_pairwise _).mp h.2⟩

theorem nodeWF_mk_parts {l : Bool} {ks : List KeyValue}
    {cs : List BTreeNode} (h : nodeWF (.mk l ks cs) = true) :
    1 ≤ ks.length ∧ ks.length ≤ ORDER - 1 ∧
    (l = true → cs = []) ∧
    (l = false → cs.length = ks.length + 1 ∧ heightsUniform cs = true ∧
      nodesWF cs = true) := by
  rw [nodeWF] at h
  simp only [Bool.and_eq_true, decide_eq_true_eq] at h
  obtain ⟨⟨h1, h2⟩, h3⟩ := h
  refine ⟨h1, h2, ?_, ?_⟩
  · intro hl
    subst hl
    simpa [List.isEmpty_iff] using h3
  · intro hl
    subst hl
    simpa [and_assoc] using h3

theorem insWF_mk_parts {l : Bool} {ks : List KeyValue}
    {cs : List BTreeNode} (h : insWF (.mk l ks cs) = true) :
    ks.length ≤ ORDER - 1 ∧
    (l = true → cs = []) ∧
    (l = false → cs.length = ks.length + 1 ∧ insWFList cs = true) := by
  rw [insWF] at h
  simp only [Bool.and_eq_true, decide_eq_true_eq] at h
  obtain ⟨h1, h3⟩ := h
  refine ⟨h1, ?_, ?_⟩
  · intro hl
    subst hl
    simpa [List.isEmpty_iff] using h3
  · intro hl
    subst hl
    simpa using h3

theorem takeWhile_middle {α : Type} (q : α → Bool) (xs ys : List α) (y : α)
    (hall : ∀ x ∈ xs, q x = true) (hy : q y = false) :
    ((xs ++ y :: ys).takeWhile q).length = xs.length := by
  induction xs with
  | nil => simp [List.takeWhile_cons, hy]
  | cons x xs' ih =>
    have hx : q x = true := hall x (by simp)
    simp only [List.cons_append, List.takeWhile_cons, hx, if_true,
      List.length_cons]
    rw [ih (fun x hx' => hall x (by simp [hx']))]

theorem getD_append_middle {α : Type} (A : List α) (y : α) (B : List α)
    (d : α) : (A ++ y :: B).getD A.length d = y := by
  induction A with
  | nil => rfl
  | cons a A' ih => simpa using ih

theorem keys_sublist_interleave (cs : List BTreeNode) (ks : List KeyValue)
    (h : cs.length = ks.length + 1) :
    ks.Sublist (toList.interleave cs ks) := by
  induction ks generalizing cs with
  | nil => simp
  | cons kv ks' ih =>
    cases cs with
    | nil => simp at h
    | cons c cs' =>
      rw [interleave_cons_cons]
      refine List.Sublist.trans ?_ (List.sublist_append_right (toList c) _)
      exact List.Sublist.cons₂ kv (ih cs' (by simpa using h))

theorem drop_interleave_head (cs : List BTreeNode) (ks : List KeyValue)
    (i : Nat) (hc : i < cs.length) (hk : i ≤ ks.length) :
    (toList (cs.getD i default)).Sublist
      (toList.interleave (cs.drop i) (ks.drop i)) := by
  rw [List.drop_eq_getElem_cons hc, List.getD_eq_getElem _ _ hc]
  cases hd : ks.drop i with
  | nil => exact List.Sublist.refl _
  | cons kv rest =>
    rw [interleave_cons_cons]
    exact List.sublist_append_left _ _

theorem child_toList_sublist (cs : List BTreeNode) (ks : List KeyValue)
    (h : cs.length = ks.length + 1) (i : Nat) (hi : i < cs.length) :
    (toList (cs.getD i default)).Sublist (toList.interleave cs ks) := by
  have hk : i ≤ ks.length := by omega
  have hdecomp : toList.interleave cs ks =
      toList.interleave (cs.take i) (ks.take i) ++
        toList.interleave (cs.drop i) (ks.drop i) := by
    rw [← interleave_append _ _ _ _ (by simp [List.length_take]; omega)]
    simp
  rw [hdecomp]
  exact List.Sublist.trans (drop_interleave_head cs ks i hi hk)
    (List.sublist_append_right _ _)

/-! ## Position lemmas on sorted key lists -/

theorem takeWhile_all {α : Type} (q : α → Bool) (l : List α)
    (h : ∀ x ∈ l, q x = true) : l.takeWhile q = l := by
  induction l with
  | nil => rfl
  | cons a l' ih =>
    rw [List.takeWhile_cons, h a (by simp), ih (fun x hx => h x (by simp [hx]))]
    simp

theorem takeWhile_none {α : Type} (q : α → Bool) (l : List α)
    (h : ∀ x ∈ l, q x = false) : l.takeWhile q = [] := by
  cases l with
  | nil => rfl
  | cons a l' =>
    rw [List.takeWhile_cons, h a (by simp)]
    simp

theorem takeWhile_all_append {α : Type} (q : α → Bool) (xs ys : List α)
    (h : ∀ x ∈ xs, q x = true) :
    (xs ++ ys).takeWhile q = xs ++ ys.takeWhile q := by
  induction xs with
  | nil => rfl
  | cons a xs' ih =>
    simp only [List.cons_append, List.takeWhile_cons, h a (by simp), if_true]
    rw [ih (fun x hx => h x (by simp [hx]))]

theorem mem_takeWhile_key_lt {ks : List KeyValue} {k : Int} :
    ∀ kv ∈ ks.takeWhile (fun kv => kv.key < k), kv.key < k := by
  intro kv h
  have := List.mem_takeWhile_imp h
  simpa using this

theorem dropWhile_gt_of_sorted {ks : List KeyValue} {k : Int}
    (hs : (ks.map (·.key)).Pairwise (· < ·))
    (hf : k ∉ ks.map (·.key)) :
    ∀ kv ∈ ks.dropWhile (fun kv => kv.key < k), k < kv.key := by
  induction ks with
  | nil => simp
  | cons a ks' ih =>
    simp only [List.map_cons, List.pairwise_cons] at hs
    simp only [List.map_cons, List.mem_cons] at hf
    push_neg at hf
    by_cases ha : a.key < k
    · rw [List.dropWhile_cons_of_pos (by simpa using ha)]
      exact ih hs.2 hf.2
    · rw [List.dropWhile_cons_of_neg (by simpa using ha)]
      intro kv hkv
      rcases List.mem_cons.mp hkv with rfl | h'
      · have : k ≠ kv.key := hf.1
        omega
      · have h1 : a.key < kv.key := hs.1 _ (List.mem_map_of_mem _ h')
        have h2 : k ≠ a.key := hf.1
        omega

theorem insPos_eq_takeWhile {ks : List KeyValue} {k : Int}
    (hs : (ks.map (·.key)).Pairwise (· < ·)) (hf : k ∉ ks.map (·.key)) :
    insPos ks k = (ks.takeWhile (fun kv => kv.key < k)).length := by
  have hAB : ks.takeWhile (fun kv => kv.key < k) ++
      ks.dropWhile (fun kv => kv.key < k) = ks := by
    rw [List.takeWhile_append_dropWhile]
  have hBgt := dropWhile_gt_of_sorted hs hf
  have hAlt := fun kv h => @mem_takeWhile_key_lt ks k kv h
  rw [insPos]
  have hrev : ks.reverse =
      (ks.dropWhile (fun kv => kv.key < k)).reverse ++
        (ks.takeWhile (fun kv => kv.key < k)).reverse := by
    rw [← List.reverse_append, hAB]
  have hlen : (ks.reverse.takeWhile (fun kv => k < kv.key)).length =
      (ks.dropWhile (fun kv => kv.key < k)).length := by
    rw [hrev]
    rcases List.eq_nil_or_concat (ks.takeWhile (fun kv => kv.key < k)) with
      hAe | ⟨A', a, hAc⟩
    · rw [hAe]
      simp only [List.reverse_nil, List.append_nil]
      rw [takeWhile_all _ _ (fun x hx => by
        simpa using hBgt x (by simpa using hx))]
      simp
    · have hsplit : (ks.dropWhile (fun kv => kv.key < k)).reverse ++
          (A'.concat a).reverse =
          (ks.dropWhile (fun kv => kv.key < k)).reverse ++ a :: A'.reverse := by
        simp [List.concat_eq_append]
      rw [hAc, hsplit]
      rw [takeWhile_middle _ _ _ a
        (fun x hx => by simpa using hBgt x (by simpa using hx))
        (by simpa using not_lt.mpr (le_of_lt (hAlt a (by
          rw [hAc, List.concat_eq_append]; exact List.mem_append_right _ (by simp)))))]
      simp
  rw [hlen]
  have := congrArg List.length hAB
  simp only [List.length_append] at this
  omega

theorem getD_append_middle2 {α : Type} (A : List α) (x y : α) (B : List α)
    (d : α) : (A ++ x :: y :: B).getD (A.length + 1) d = y := by
  induction A with
  | nil => rfl
  | cons a A' ih => simpa using ih

theorem mem_set_self {α : Type} (l : List α) (i : Nat) (a : α)
    (h : i < l.length) : a ∈ l.set i a := by
  have h2 : i < (l.set i a).length := by simpa using h
  have h3 : (l.set i a)[i] = a := by
    rw [List.getElem_set]
    simp
  have h4 := List.getElem_mem h2
  rwa [h3] at h4

theorem list_len_four {α : Type} {l : List α} (h : l.length = 4) :
    ∃ a b c d, l = [a, b, c, d] := by
  cases l with
  | nil => simp at h
  | cons a l1 =>
  cases l1 with
  | nil => simp at h
  | cons b l2 =>
  cases l2 with
  | nil => simp at h
  | cons c l3 =>
  cases l3 with
  | nil => simp at h
  | cons d l4 =>
  cases l4 with
  | cons e l5 =>
    simp only [List.length_cons] at h
    omega
  | nil => exact ⟨a, b, c, d, rfl⟩

theorem list_len_five {α : Type} {l : List α} (h : l.length = 5) :
    ∃ a b c d e, l = [a, b, c, d, e] := by
  cases l with
  | nil => simp at h
  | cons a l1 =>
    obtain ⟨b, c, d, e, rfl⟩ := list_len_four (l := l1) (by simpa using h)
    exact ⟨a, b, c, d, e, rfl⟩

/-! ## Facts about `btree_split_child` -/

theorem insWF_keys_le (n : BTreeNode) (h : insWF n = true) :
    n.keys.length ≤ ORDER - 1 := by
  cases n with
  | mk l ks cs => simpa using (insWF_mk_parts h).1

/-- `btree_split_child` unfolded on an internal parent, with the source's
`ORDER / 2 = 2` and `ORDER / 2 - 1 = 1` computed. -/
theorem btree_split_child_eq (l : Bool) (ks : List KeyValue)
    (cs : List BTreeNode) (i : Nat) :
    btree_split_child (.mk l ks cs) i =
      .mk l
        (ks.take i ++ (cs.getD i default).keys.getD 1 default :: ks.drop i)
        (cs.take i ++
          .mk (cs.getD i default).is_leaf ((cs.getD i default).keys.take 1)
            (if (cs.getD i default).is_leaf then (cs.getD i default).children
             else (cs.getD i default).children.take 2) ::
          .mk (cs.getD i default).is_leaf
            (((cs.getD i default).keys.drop 2).take 1)
            (if (cs.getD i default).is_leaf then []
             else ((cs.getD i default).children.drop 2).take 2) ::
          cs.drop (i + 1)) := by
  rw [btree_split_child]
  simp [ORDER]

/-- The two halves `btree_split_child` builds from a full child: they are
structurally well formed, their contents (left half, promoted key, right
half) form a prefix of the child's in-order contents — in particular a
sublist, so sortedness and key-absence transfer — their heights do not
exceed the child's, each holds exactly one key, and the promoted key was
one of the child's in-order pairs. -/
theorem split_half_facts (child : BTreeNode) (hwf : insWF child = true)
    (hfull : child.keys.length = 4) :
    insWF (.mk child.is_leaf (child.keys.take 1)
      (if child.is_leaf then child.children
       else child.children.take 2)) = true ∧
    insWF (.mk child.is_leaf ((child.keys.drop 2).take 1)
      (if child.is_leaf then [] else (child.children.drop 2).take 2)) = true ∧
    (toList (.mk child.is_leaf (child.keys.take 1)
        (if child.is_leaf then child.children
         else child.children.take 2)) ++
      child.keys.getD 1 default ::
        toList (.mk child.is_leaf ((child.keys.drop 2).take 1)
          (if child.is_leaf then []
           else (child.children.drop 2).take 2))).Sublist (toList child) ∧
    height (.mk child.is_leaf (child.keys.take 1)
      (if child.is_leaf then child.children
       else child.children.take 2)) ≤ height child ∧
    height (.mk child.is_leaf ((child.keys.drop 2).take 1)
      (if child.is_leaf then []
       else (child.children.drop 2).take 2)) ≤ height child ∧
    (child.keys.take 1).length = 1 ∧
    ((child.keys.drop 2).take 1).length = 1 := by
  cases child with
  | mk fl cks ccs =>
  simp only [BTreeNode.is_leaf_mk, BTreeNode.keys_mk, BTreeNode.children_mk] at *
  obtain ⟨a, b, c, d, rfl⟩ := list_len_four hfull
  obtain ⟨-, hleaf, hint⟩ := insWF_mk_parts hwf
  cases fl with
  | true =>
    have hcs : ccs = [] := hleaf rfl
    subst hcs
    refine ⟨rfl, rfl, ?_, le_refl _, le_refl _, rfl, rfl⟩
    have hsplit : toList (.mk true [a, b, c, d] ([] : List BTreeNode)) =
        (toList (.mk true [a] ([] : List BTreeNode)) ++
          b :: toList (.mk true [c] ([] : List BTreeNode))) ++ [d] := by
      simp [toList_leaf]
    rw [show ([a, b, c, d].take 1) = [a] from rfl,
      show (([a, b, c, d].drop 2).take 1) = [c] from rfl,
      show ([a, b, c, d].getD 1 default) = b from rfl, hsplit]
    exact List.sublist_append_left _ _
  | false =>
    obtain ⟨hlen, hwfl⟩ := hint rfl
    obtain ⟨c0, c1, c2, c3, c4, rfl⟩ := list_len_five (by simpa using hlen)
    have hmem := (insWFList_iff_forall _).mp hwfl
    have hsub1 : [c0, c1].Sublist [c0, c1, c2, c3, c4] := by
      have : [c0, c1, c2, c3, c4] = [c0, c1] ++ [c2, c3, c4] := rfl
      rw [this]
      exact List.sublist_append_left _ _
    have hsub2 : [c2, c3].Sublist [c0, c1, c2, c3, c4] := by
      refine List.Sublist.trans ?_ (List.sublist_append_right [c0, c1] _)
      have : [c2, c3, c4] = [c2, c3] ++ [c4] := rfl
      rw [this]
      exact List.sublist_append_left _ _
    refine ⟨?_, ?_, ?_, ?_, ?_, rfl, rfl⟩
    · have h0 := hmem c0 (by simp)
      have h1 := hmem c1 (by simp)
      simp [insWF, ORDER, insWFList, h0, h1]
    · have h2 := hmem c2 (by simp)
      have h3 := hmem c3 (by simp)
      simp [insWF, ORDER, insWFList, h2, h3]
    · have hfull_toList : toList (.mk false [a, b, c, d] [c0, c1, c2, c3, c4]) =
          ((toList c0 ++ a :: toList c1) ++
            b :: (toList c2 ++ c :: toList c3)) ++ d :: toList c4 := by
        rw [toList_internal]
        simp [interleave_cons_cons, interleave_cons_nil]
      have hhalf1 : toList (.mk false ([a, b, c, d].take 1)
          ([c0, c1, c2, c3, c4].take 2)) = toList c0 ++ a :: toList c1 := by
        rw [show ([a, b, c, d].take 1) = [a] from rfl,
          show ([c0, c1, c2, c3, c4].take 2) = [c0, c1] from rfl,
          toList_internal, interleave_cons_cons]
        rfl
      have hhalf2 : toList (.mk false (([a, b, c, d].drop 2).take 1)
          (([c0, c1, c2, c3, c4].drop 2).take 2)) =
          toList c2 ++ c :: toList c3 := by
        rw [show (([a, b, c, d].drop 2).take 1) = [c] from rfl,
          show (([c0, c1, c2, c3, c4].drop 2).take 2) = [c2, c3] from rfl,
          toList_internal, interleave_cons_cons]
        rfl
      rw [if_neg (by simp), if_neg (by simp), hhalf1, hhalf2,
        show ([a, b, c, d].getD 1 default) = b from rfl, hfull_toList]
      exact List.sublist_append_left _ _
    · rw [if_neg (by simp),
        show (List.take 2 [c0, c1, c2, c3, c4]) = [c0, c1] from rfl,
        height_mk, height_mk]
      have := heightList_sublist hsub1
      omega
    · rw [if_neg (by simp),
        show ((List.drop 2 [c0, c1, c2, c3, c4]).take 2) = [c2, c3] from rfl,
        height_mk, height_mk]
      have := heightList_sublist hsub2
      omega

theorem take_append_first {α : Type} {l A B : List α} (h : A ++ B = l) :
    l.take A.length = A := by
  rw [← h, List.take_left]

theorem drop_append_second {α : Type} {l A B : List α} (h : A ++ B = l) :
    l.drop A.length = B := by
  rw [← h, List.drop_left]

theorem getD_append_at {α : Type} (A : List α) (x : α) (B : List α) (d : α)
    {i : Nat} (h : A.length = i) : (A ++ x :: B).getD i d = x :=
  h ▸ getD_append_middle A x B d

theorem getD_append_at2 {α : Type} (A : List α) (x y : α) (B : List α)
    (d : α) {i : Nat} (h : A.length + 1 = i) :
    (A ++ x :: y :: B).getD i d = y :=
  h ▸ getD_append_middle2 A x y B d

/-- Core lemma for C9: inserting a fresh key `k` into a non-full,
structurally sound node with sorted contents places the pair
`(k, copy of the first `sz` bytes of `data`)` where the search scan finds
it, so a subsequent `btree_search_node` (with any sufficient fuel) returns
exactly that freshly copied value. -/
theorem insert_non_full_search (fuel : Nat) :
    ∀ (n : BTreeNode) (k : Int) (data : List Nat) (sz : Nat),
      insWF n = true →
      ((toList n).map (·.key)).Pairwise (· < ·) →
      k ∉ (toList n).map (·.key) →
      height n ≤ fuel →
      n.keys.length < ORDER - 1 →
      ∀ sfuel, height (btree_insert_non_full fuel n k data sz) ≤ sfuel →
        btree_search_node sfuel (btree_insert_non_full fuel n k data sz) k =
          some { data := some (data.take sz), data_size := sz } := by
  induction fuel with
  | zero =>
    intro n k data sz _ _ _ hht _
    exact absurd hht (by have := height_pos n; omega)
  | succ fuel ih =>
    intro n k data sz hwf hsort hfresh hht hnf sfuel hsf
    cases n with
    | mk l ks cs =>
    obtain ⟨hks4, hleafE, hintE⟩ := insWF_mk_parts hwf
    have hAB : ks.takeWhile (fun kv => kv.key < k) ++
        ks.dropWhile (fun kv => kv.key < k) = ks := by
      rw [List.takeWhile_append_dropWhile]
    have hABlen : (ks.takeWhile (fun kv => kv.key < k)).length +
        (ks.dropWhile (fun kv => kv.key < k)).length = ks.length := by
      have h2 := congrArg List.length hAB
      rw [List.length_append] at h2
      exact h2
    cases l with
    | true =>
      -- leaf: the pair is stored at `insPos`, between the keys `< k` and
      -- the keys `> k`; the search scan lands exactly there.
      have hcs : cs = [] := hleafE rfl
      subst hcs
      rw [toList_leaf] at hsort hfresh
      have hpos : insPos ks k = (ks.takeWhile (fun kv => kv.key < k)).length :=
        insPos_eq_takeWhile hsort hfresh
      have htake : ks.take (insPos ks k) = ks.takeWhile (fun kv => kv.key < k) := by
        rw [hpos]
        exact take_append_first hAB
      have hdrop : ks.drop (insPos ks k) = ks.dropWhile (fun kv => kv.key < k) := by
        rw [hpos]
        exact drop_append_second hAB
      have hres : btree_insert_non_full (fuel + 1) (.mk true ks []) k data sz =
          .mk true (ks.takeWhile (fun kv => kv.key < k) ++
            { key := k, value := { data := some (data.take sz), data_size := sz } } ::
            ks.dropWhile (fun kv => kv.key < k)) [] := by
        simp [btree_insert_non_full, htake, hdrop]
      rw [hres] at hsf ⊢
      cases sfuel with
      | zero =>
        exact absurd hsf (by have := height_pos (BTreeNode.mk true
          (ks.takeWhile (fun kv => kv.key < k) ++
            { key := k, value := { data := some (data.take sz), data_size := sz } } ::
            ks.dropWhile (fun kv => kv.key < k)) []); omega)
      | succ s =>
        have hall : ∀ x ∈ ks.takeWhile (fun kv => kv.key < k),
            (fun kv : KeyValue => decide (kv.key < k)) x = true := by
          intro x hx
          simpa using mem_takeWhile_key_lt x hx
        have hmid := takeWhile_middle (fun kv : KeyValue => decide (kv.key < k))
          (ks.takeWhile (fun kv => kv.key < k))
          (ks.dropWhile (fun kv => kv.key < k))
          { key := k, value := { data := some (data.take sz), data_size := sz } }
          hall (by simp)
        have hgd := getD_append_middle
          (ks.takeWhile (fun kv => kv.key < k))
          { key := k, value := { data := some (data.take sz), data_size := sz } }
          (ks.dropWhile (fun kv => kv.key < k)) (default : KeyValue)
        simp only [btree_search_node, hmid, hgd]
        rw [if_pos (by constructor <;> simp)]
    | false =>
      -- internal: the scan position is the same before and after the
      -- insert (the key list is unchanged, or gains the promoted key on
      -- the side the comparison accounts for), so search descends into
      -- exactly the child the insert descended into.
      obtain ⟨hlen, hwfl⟩ := hintE rfl
      rw [toList_internal] at hsort hfresh
      have hks_sub : (ks.map (·.key)).Sublist
          ((toList.interleave cs ks).map (·.key)) :=
        List.Sublist.map _ (keys_sublist_interleave cs ks hlen)
      have hsort_ks : (ks.map (·.key)).Pairwise (· < ·) :=
        List.Pairwise.sublist hks_sub hsort
      have hfresh_ks : k ∉ ks.map (·.key) := fun hk => hfresh (hks_sub.subset hk)
      have hpos : insPos ks k = (ks.takeWhile (fun kv => kv.key < k)).length :=
        insPos_eq_takeWhile hsort_ks hfresh_ks
      have htake : ks.take (insPos ks k) = ks.takeWhile (fun kv => kv.key < k) := by
        rw [hpos]
        exact take_append_first hAB
      have hdrop : ks.drop (insPos ks k) = ks.dropWhile (fun kv => kv.key < k) := by
        rw [hpos]
        exact drop_append_second hAB
      have hiks : insPos ks k ≤ ks.length := by
        rw [hpos]
        omega
      have hics : insPos ks k < cs.length := by omega
      have hchild_mem : cs.getD (insPos ks k) default ∈ cs := by
        rw [List.getD_eq_getElem _ _ hics]
        exact List.getElem_mem hics
      have hchild_wf : insWF (cs.getD (insPos ks k) default) = true :=
        (insWFList_iff_forall cs).mp hwfl _ hchild_mem
      have hchild_sub : (toList (cs.getD (insPos ks k) default)).Sublist
          (toList.interleave cs ks) :=
        child_toList_sublist cs ks hlen _ hics
      have hchild_sorted : ((toList (cs.getD (insPos ks k) default)).map
          (·.key)).Pairwise (· < ·) :=
        List.Pairwise.sublist (List.Sublist.map _ hchild_sub) hsort
      have hchild_fresh : k ∉ (toList (cs.getD (insPos ks k) default)).map (·.key) :=
        fun hk => hfresh ((List.Sublist.map _ hchild_sub).subset hk)
      have hchild_ht : height (cs.getD (insPos ks k) default) ≤ fuel := by
        have := @height_lt_of_mem _ false ks _ hchild_mem
        omega
      have hnotmem_ks : ∀ i : Nat, ¬((ks.getD i default).key = k ∧ i < ks.length) := by
        rintro i ⟨he, hlt⟩
        apply hfresh_ks
        rw [← he]
        refine List.mem_map_of_mem _ ?_
        rw [List.getD_eq_getElem _ _ hlt]
        exact List.getElem_mem hlt
      have hBgt : ∀ kv ∈ ks.dropWhile (fun kv => kv.key < k), k < kv.key :=
        dropWhile_gt_of_sorted hsort_ks hfresh_ks
      have hallA : ∀ x ∈ ks.takeWhile (fun kv => kv.key < k),
          (fun kv : KeyValue => decide (kv.key < k)) x = true := by
        intro x hx
        simpa using mem_takeWhile_key_lt x hx
      by_cases hfull : (cs.getD (insPos ks k) default).keys.length = ORDER - 1
      · -- full child: split, then descend into the chosen half
        obtain ⟨hwf1, hwf2, hsubhalves, hh1, hh2, hk1, hk2⟩ :=
          split_half_facts _ hchild_wf hfull
        have htl : (cs.take (insPos ks k)).length = insPos ks k := by
          rw [List.length_take]
          exact Nat.min_eq_left (le_of_lt hics)
        have hgdP : ((ks.takeWhile (fun kv => kv.key < k)) ++ ((cs.getD (insPos ks k) default).keys.getD 1 default) :: (ks.dropWhile (fun kv => kv.key < k))).getD (insPos ks k) default = ((cs.getD (insPos ks k) default).keys.getD 1 default) :=
          getD_append_at _ _ _ _ hpos.symm
        have hPmem : ((cs.getD (insPos ks k) default).keys.getD 1 default) ∈ toList (cs.getD (insPos ks k) default) := hsubhalves.subset (by simp)
        have hPne : ((cs.getD (insPos ks k) default).keys.getD 1 default).key ≠ k :=
          fun he => hchild_fresh (by
            have hm : ((cs.getD (insPos ks k) default).keys.getD 1 default).key ∈
                (toList (cs.getD (insPos ks k) default)).map (fun x => x.key) :=
              List.mem_map_of_mem _ hPmem
            rw [he] at hm
            exact hm)
        have hBfail : ∀ x ∈ ks.dropWhile (fun kv => kv.key < k),
            (fun kv : KeyValue => decide (kv.key < k)) x = false := by
          intro x hx
          have := hBgt x hx
          simp
          omega
        have hres : btree_insert_non_full (fuel + 1) (.mk false ks cs) k data sz =
            .mk false ((ks.takeWhile (fun kv => kv.key < k)) ++ ((cs.getD (insPos ks k) default).keys.getD 1 default) :: (ks.dropWhile (fun kv => kv.key < k)))
              ((cs.take (insPos ks k) ++ (BTreeNode.mk (cs.getD (insPos ks k) default).is_leaf ((cs.getD (insPos ks k) default).keys.take 1) (if (cs.getD (insPos ks k) default).is_leaf then (cs.getD (insPos ks k) default).children else (cs.getD (insPos ks k) default).children.take 2)) :: (BTreeNode.mk (cs.getD (insPos ks k) default).is_leaf (((cs.getD (insPos ks k) default).keys.drop 2).take 1) (if (cs.getD (insPos ks k) default).is_leaf then [] else ((cs.getD (insPos ks k) default).children.drop 2).take 2)) :: cs.drop (insPos ks k + 1)).set
                (if k > ((cs.getD (insPos ks k) default).keys.getD 1 default).key then insPos ks k + 1 else insPos ks k)
                (btree_insert_non_full fuel
                  ((cs.take (insPos ks k) ++ (BTreeNode.mk (cs.getD (insPos ks k) default).is_leaf ((cs.getD (insPos ks k) default).keys.take 1) (if (cs.getD (insPos ks k) default).is_leaf then (cs.getD (insPos ks k) default).children else (cs.getD (insPos ks k) default).children.take 2)) :: (BTreeNode.mk (cs.getD (insPos ks k) default).is_leaf (((cs.getD (insPos ks k) default).keys.drop 2).take 1) (if (cs.getD (insPos ks k) default).is_leaf then [] else ((cs.getD (insPos ks k) default).children.drop 2).take 2)) :: cs.drop (insPos ks k + 1)).getD
                    (if k > ((cs.getD (insPos ks k) default).keys.getD 1 default).key then insPos ks k + 1 else insPos ks k) default) k data sz)) := by
          simp only [btree_insert_non_full]
          rw [if_neg (by simp)]
          rw [if_pos hfull]
          rw [btree_split_child_eq]
          simp only [BTreeNode.is_leaf_mk, BTreeNode.keys_mk,
            BTreeNode.children_mk]
          simp only [htake, hdrop, hgdP]
        rw [hres] at hsf ⊢
        have hCS2len : (cs.take (insPos ks k) ++ (BTreeNode.mk (cs.getD (insPos ks k) default).is_leaf ((cs.getD (insPos ks k) default).keys.take 1) (if (cs.getD (insPos ks k) default).is_leaf then (cs.getD (insPos ks k) default).children else (cs.getD (insPos ks k) default).children.take 2)) :: (BTreeNode.mk (cs.getD (insPos ks k) default).is_leaf (((cs.getD (insPos ks k) default).keys.drop 2).take 1) (if (cs.getD (insPos ks k) default).is_leaf then [] else ((cs.getD (insPos ks k) default).children.drop 2).take 2)) :: cs.drop (insPos ks k + 1)).length = cs.length + 1 := by
          rw [List.length_append, htl]
          simp only [List.length_cons, List.length_drop]
          omega
        by_cases hgt : ((cs.getD (insPos ks k) default).keys.getD 1 default).key < k
        · -- the new key goes into (and is found in) the right half
          rw [if_pos (show k > ((cs.getD (insPos ks k) default).keys.getD 1 default).key from hgt)] at hsf ⊢
          have hgdH2 : (cs.take (insPos ks k) ++ (BTreeNode.mk (cs.getD (insPos ks k) default).is_leaf ((cs.getD (insPos ks k) default).keys.take 1) (if (cs.getD (insPos ks k) default).is_leaf then (cs.getD (insPos ks k) default).children else (cs.getD (insPos ks k) default).children.take 2)) :: (BTreeNode.mk (cs.getD (insPos ks k) default).is_leaf (((cs.getD (insPos ks k) default).keys.drop 2).take 1) (if (cs.getD (insPos ks k) default).is_leaf then [] else ((cs.getD (insPos ks k) default).children.drop 2).take 2)) :: cs.drop (insPos ks k + 1)).getD (insPos ks k + 1) default = BTreeNode.mk (cs.getD (insPos ks k) default).is_leaf (((cs.getD (insPos ks k) default).keys.drop 2).take 1) (if (cs.getD (insPos ks k) default).is_leaf then [] else ((cs.getD (insPos ks k) default).children.drop 2).take 2) :=
            getD_append_at2 _ _ _ _ _ (by rw [htl])
          rw [hgdH2] at hsf ⊢
          cases sfuel with
          | zero =>
            exact absurd hsf (by
              have := height_pos (BTreeNode.mk false ((ks.takeWhile (fun kv => kv.key < k)) ++ ((cs.getD (insPos ks k) default).keys.getD 1 default) :: (ks.dropWhile (fun kv => kv.key < k)))
                ((cs.take (insPos ks k) ++ (BTreeNode.mk (cs.getD (insPos ks k) default).is_leaf ((cs.getD (insPos ks k) default).keys.take 1) (if (cs.getD (insPos ks k) default).is_leaf then (cs.getD (insPos ks k) default).children else (cs.getD (insPos ks k) default).children.take 2)) :: (BTreeNode.mk (cs.getD (insPos ks k) default).is_leaf (((cs.getD (insPos ks k) default).keys.drop 2).take 1) (if (cs.getD (insPos ks k) default).is_leaf then [] else ((cs.getD (insPos ks k) default).children.drop 2).take 2)) :: cs.drop (insPos ks k + 1)).set (insPos ks k + 1)
                  (btree_insert_non_full fuel (BTreeNode.mk (cs.getD (insPos ks k) default).is_leaf (((cs.getD (insPos ks k) default).keys.drop 2).take 1) (if (cs.getD (insPos ks k) default).is_leaf then [] else ((cs.getD (insPos ks k) default).children.drop 2).take 2)) k data sz)))
              omega)
          | succ s =>
            have hi2 : (((ks.takeWhile (fun kv => kv.key < k)) ++ ((cs.getD (insPos ks k) default).keys.getD 1 default) :: (ks.dropWhile (fun kv => kv.key < k))).takeWhile
                (fun kv => decide (kv.key < k))).length =
                (ks.takeWhile (fun kv => kv.key < k)).length + 1 := by
              rw [show ((ks.takeWhile (fun kv => kv.key < k)) ++ ((cs.getD (insPos ks k) default).keys.getD 1 default) :: (ks.dropWhile (fun kv => kv.key < k))) = ((ks.takeWhile (fun kv => kv.key < k)) ++ [((cs.getD (insPos ks k) default).keys.getD 1 default)]) ++ (ks.dropWhile (fun kv => kv.key < k)) by simp,
                takeWhile_all_append _ _ _ (by
                  intro x hx
                  rcases List.mem_append.mp hx with h1 | h1
                  · exact hallA x h1
                  · simp only [List.mem_singleton] at h1
                    subst h1
                    simpa using hgt),
                takeWhile_none _ _ hBfail]
              simp
            have hnc : ¬((((ks.takeWhile (fun kv => kv.key < k)) ++ ((cs.getD (insPos ks k) default).keys.getD 1 default) :: (ks.dropWhile (fun kv => kv.key < k))).getD ((ks.takeWhile (fun kv => kv.key < k)).length + 1) default).key = k ∧
                (ks.takeWhile (fun kv => kv.key < k)).length + 1 < ((ks.takeWhile (fun kv => kv.key < k)) ++ ((cs.getD (insPos ks k) default).keys.getD 1 default) :: (ks.dropWhile (fun kv => kv.key < k))).length) := by
              rintro ⟨he, hlt⟩
              rw [List.length_append, List.length_cons] at hlt
              cases hB2 : ks.dropWhile (fun kv => kv.key < k) with
              | nil =>
                rw [hB2] at hlt
                simp at hlt
              | cons b B2 =>
                rw [hB2] at he
                rw [getD_append_at2 _ _ _ _ _ rfl] at he
                have := hBgt b (by rw [hB2]; simp)
                omega
            have hmemc : btree_insert_non_full fuel (BTreeNode.mk (cs.getD (insPos ks k) default).is_leaf (((cs.getD (insPos ks k) default).keys.drop 2).take 1) (if (cs.getD (insPos ks k) default).is_leaf then [] else ((cs.getD (insPos ks k) default).children.drop 2).take 2)) k data sz ∈
                (cs.take (insPos ks k) ++ (BTreeNode.mk (cs.getD (insPos ks k) default).is_leaf ((cs.getD (insPos ks k) default).keys.take 1) (if (cs.getD (insPos ks k) default).is_leaf then (cs.getD (insPos ks k) default).children else (cs.getD (insPos ks k) default).children.take 2)) :: (BTreeNode.mk (cs.getD (insPos ks k) default).is_leaf (((cs.getD (insPos ks k) default).keys.drop 2).take 1) (if (cs.getD (insPos ks k) default).is_leaf then [] else ((cs.getD (insPos ks k) default).children.drop 2).take 2)) :: cs.drop (insPos ks k + 1)).set (insPos ks k + 1)
                  (btree_insert_non_full fuel (BTreeNode.mk (cs.getD (insPos ks k) default).is_leaf (((cs.getD (insPos ks k) default).keys.drop 2).take 1) (if (cs.getD (insPos ks k) default).is_leaf then [] else ((cs.getD (insPos ks k) default).children.drop 2).take 2)) k data sz) :=
              mem_set_self _ _ _ (by omega)
            have hs_ht : height (btree_insert_non_full fuel (BTreeNode.mk (cs.getD (insPos ks k) default).is_leaf (((cs.getD (insPos ks k) default).keys.drop 2).take 1) (if (cs.getD (insPos ks k) default).is_leaf then [] else ((cs.getD (insPos ks k) default).children.drop 2).take 2)) k data sz) ≤ s := by
              have := @height_lt_of_mem _ false ((ks.takeWhile (fun kv => kv.key < k)) ++ ((cs.getD (insPos ks k) default).keys.getD 1 default) :: (ks.dropWhile (fun kv => kv.key < k))) _ hmemc
              omega
            have hgds : ((cs.take (insPos ks k) ++ (BTreeNode.mk (cs.getD (insPos ks k) default).is_leaf ((cs.getD (insPos ks k) default).keys.take 1) (if (cs.getD (insPos ks k) default).is_leaf then (cs.getD (insPos ks k) default).children else (cs.getD (insPos ks k) default).children.take 2)) :: (BTreeNode.mk (cs.getD (insPos ks k) default).is_leaf (((cs.getD (insPos ks k) default).keys.drop 2).take 1) (if (cs.getD (insPos ks k) default).is_leaf then [] else ((cs.getD (insPos ks k) default).children.drop 2).take 2)) :: cs.drop (insPos ks k + 1)).set (insPos ks k + 1)
                (btree_insert_non_full fuel (BTreeNode.mk (cs.getD (insPos ks k) default).is_leaf (((cs.getD (insPos ks k) default).keys.drop 2).take 1) (if (cs.getD (insPos ks k) default).is_leaf then [] else ((cs.getD (insPos ks k) default).children.drop 2).take 2)) k data sz)).getD
                ((ks.takeWhile (fun kv => kv.key < k)).length + 1) default =
                btree_insert_non_full fuel (BTreeNode.mk (cs.getD (insPos ks k) default).is_leaf (((cs.getD (insPos ks k) default).keys.drop 2).take 1) (if (cs.getD (insPos ks k) default).is_leaf then [] else ((cs.getD (insPos ks k) default).children.drop 2).take 2)) k data sz := by
              rw [show (ks.takeWhile (fun kv => kv.key < k)).length + 1 = insPos ks k + 1 by rw [hpos]]
              exact getD_set_self _ _ _ _ (by omega)
            have hsubH2 : (toList (BTreeNode.mk (cs.getD (insPos ks k) default).is_leaf (((cs.getD (insPos ks k) default).keys.drop 2).take 1) (if (cs.getD (insPos ks k) default).is_leaf then [] else ((cs.getD (insPos ks k) default).children.drop 2).take 2))).Sublist (toList.interleave cs ks) :=
              (((List.sublist_cons_self ((cs.getD (insPos ks k) default).keys.getD 1 default) _).trans
                (List.sublist_append_right (toList (BTreeNode.mk (cs.getD (insPos ks k) default).is_leaf ((cs.getD (insPos ks k) default).keys.take 1) (if (cs.getD (insPos ks k) default).is_leaf then (cs.getD (insPos ks k) default).children else (cs.getD (insPos ks k) default).children.take 2))) _)).trans
                hsubhalves).trans hchild_sub
            simp only [btree_search_node, hi2]
            rw [if_neg hnc, if_neg (by simp), hgds]
            refine ih _ k data sz hwf2 ?_ ?_ ?_ ?_ s hs_ht
            · exact List.Pairwise.sublist (List.Sublist.map _ hsubH2) hsort
            · exact fun hk => hfresh ((List.Sublist.map _ hsubH2).subset hk)
            · exact le_trans hh2 hchild_ht
            · simp only [BTreeNode.keys_mk]
              rw [hk2]
              decide
        · -- the new key goes into (and is found in) the left half
          rw [if_neg (show ¬(k > ((cs.getD (insPos ks k) default).keys.getD 1 default).key) from hgt)] at hsf ⊢
          have hgdH1 : (cs.take (insPos ks k) ++ (BTreeNode.mk (cs.getD (insPos ks k) default).is_leaf ((cs.getD (insPos ks k) default).keys.take 1) (if (cs.getD (insPos ks k) default).is_leaf then (cs.getD (insPos ks k) default).children else (cs.getD (insPos ks k) default).children.take 2)) :: (BTreeNode.mk (cs.getD (insPos ks k) default).is_leaf (((cs.getD (insPos ks k) default).keys.drop 2).take 1) (if (cs.getD (insPos ks k) default).is_leaf then [] else ((cs.getD (insPos ks k) default).children.drop 2).take 2)) :: cs.drop (insPos ks k + 1)).getD (insPos ks k) default = BTreeNode.mk (cs.getD (insPos ks k) default).is_leaf ((cs.getD (insPos ks k) default).keys.take 1) (if (cs.getD (insPos ks k) default).is_leaf then (cs.getD (insPos ks k) default).children else (cs.getD (insPos ks k) default).children.take 2) :=
            getD_append_at _ _ _ _ htl
          rw [hgdH1] at hsf ⊢
          cases sfuel with
          | zero =>
            exact absurd hsf (by
              have := height_pos (BTreeNode.mk false ((ks.takeWhile (fun kv => kv.key < k)) ++ ((cs.getD (insPos ks k) default).keys.getD 1 default) :: (ks.dropWhile (fun kv => kv.key < k)))
                ((cs.take (insPos ks k) ++ (BTreeNode.mk (cs.getD (insPos ks k) default).is_leaf ((cs.getD (insPos ks k) default).keys.take 1) (if (cs.getD (insPos ks k) default).is_leaf then (cs.getD (insPos ks k) default).children else (cs.getD (insPos ks k) default).children.take 2)) :: (BTreeNode.mk (cs.getD (insPos ks k) default).is_leaf (((cs.getD (insPos ks k) default).keys.drop 2).take 1) (if (cs.getD (insPos ks k) default).is_leaf then [] else ((cs.getD (insPos ks k) default).children.drop 2).take 2)) :: cs.drop (insPos ks k + 1)).set (insPos ks k)
                  (btree_insert_non_full fuel (BTreeNode.mk (cs.getD (insPos ks k) default).is_leaf ((cs.getD (insPos ks k) default).keys.take 1) (if (cs.getD (insPos ks k) default).is_leaf then (cs.getD (insPos ks k) default).children else (cs.getD (insPos ks k) default).children.take 2)) k data sz)))
              omega)
          | succ s =>
            have hi2 : (((ks.takeWhile (fun kv => kv.key < k)) ++ ((cs.getD (insPos ks k) default).keys.getD 1 default) :: (ks.dropWhile (fun kv => kv.key < k))).takeWhile
                (fun kv => decide (kv.key < k))).length = (ks.takeWhile (fun kv => kv.key < k)).length := by
              exact takeWhile_middle _ _ _ _ hallA (by
                simp only [decide_eq_false_iff_not]
                exact hgt)
            have hnc : ¬((((ks.takeWhile (fun kv => kv.key < k)) ++ ((cs.getD (insPos ks k) default).keys.getD 1 default) :: (ks.dropWhile (fun kv => kv.key < k))).getD ((ks.takeWhile (fun kv => kv.key < k)).length) default).key = k ∧
                (ks.takeWhile (fun kv => kv.key < k)).length < ((ks.takeWhile (fun kv => kv.key < k)) ++ ((cs.getD (insPos ks k) default).keys.getD 1 default) :: (ks.dropWhile (fun kv => kv.key < k))).length) := by
              rintro ⟨he, -⟩
              rw [getD_append_at _ _ _ _ rfl] at he
              exact hPne he
            have hmemc : btree_insert_non_full fuel (BTreeNode.mk (cs.getD (insPos ks k) default).is_leaf ((cs.getD (insPos ks k) default).keys.take 1) (if (cs.getD (insPos ks k) default).is_leaf then (cs.getD (insPos ks k) default).children else (cs.getD (insPos ks k) default).children.take 2)) k data sz ∈
                (cs.take (insPos ks k) ++ (BTreeNode.mk (cs.getD (insPos ks k) default).is_leaf ((cs.getD (insPos ks k) default).keys.take 1) (if (cs.getD (insPos ks k) default).is_leaf then (cs.getD (insPos ks k) default).children else (cs.getD (insPos ks k) default).children.take 2)) :: (BTreeNode.mk (cs.getD (insPos ks k) default).is_leaf (((cs.getD (insPos ks k) default).keys.drop 2).take 1) (if (cs.getD (insPos ks k) default).is_leaf then [] else ((cs.getD (insPos ks k) default).children.drop 2).take 2)) :: cs.drop (insPos ks k + 1)).set (insPos ks k)
                  (btree_insert_non_full fuel (BTreeNode.mk (cs.getD (insPos ks k) default).is_leaf ((cs.getD (insPos ks k) default).keys.take 1) (if (cs.getD (insPos ks k) default).is_leaf then (cs.getD (insPos ks k) default).children else (cs.getD (insPos ks k) default).children.take 2)) k data sz) :=
              mem_set_self _ _ _ (by omega)
            have hs_ht : height (btree_insert_non_full fuel (BTreeNode.mk (cs.getD (insPos ks k) default).is_leaf ((cs.getD (insPos ks k) default).keys.take 1) (if (cs.getD (insPos ks k) default).is_leaf then (cs.getD (insPos ks k) default).children else (cs.getD (insPos ks k) default).children.take 2)) k data sz) ≤ s := by
              have := @height_lt_of_mem _ false ((ks.takeWhile (fun kv => kv.key < k)) ++ ((cs.getD (insPos ks k) default).keys.getD 1 default) :: (ks.dropWhile (fun kv => kv.key < k))) _ hmemc
              omega
            have hgds : ((cs.take (insPos ks k) ++ (BTreeNode.mk (cs.getD (insPos ks k) default).is_leaf ((cs.getD (insPos ks k) default).keys.take 1) (if (cs.getD (insPos ks k) default).is_leaf then (cs.getD (insPos ks k) default).children else (cs.getD (insPos ks k) default).children.take 2)) :: (BTreeNode.mk (cs.getD (insPos ks k) default).is_leaf (((cs.getD (insPos ks k) default).keys.drop 2).take 1) (if (cs.getD (insPos ks k) default).is_leaf then [] else ((cs.getD (insPos ks k) default).children.drop 2).take 2)) :: cs.drop (insPos ks k + 1)).set (insPos ks k)
                (btree_insert_non_full fuel (BTreeNode.mk (cs.getD (insPos ks k) default).is_leaf ((cs.getD (insPos ks k) default).keys.take 1) (if (cs.getD (insPos ks k) default).is_leaf then (cs.getD (insPos ks k) default).children else (cs.getD (insPos ks k) default).children.take 2)) k data sz)).getD
                ((ks.takeWhile (fun kv => kv.key < k)).length) default =
                btree_insert_non_full fuel (BTreeNode.mk (cs.getD (insPos ks k) default).is_leaf ((cs.getD (insPos ks k) default).keys.take 1) (if (cs.getD (insPos ks k) default).is_leaf then (cs.getD (insPos ks k) default).children else (cs.getD (insPos ks k) default).children.take 2)) k data sz := by
              rw [show (ks.takeWhile (fun kv => kv.key < k)).length = insPos ks k by rw [hpos]]
              exact getD_set_self _ _ _ _ (by omega)
            have hsubH1 : (toList (BTreeNode.mk (cs.getD (insPos ks k) default).is_leaf ((cs.getD (insPos ks k) default).keys.take 1) (if (cs.getD (insPos ks k) default).is_leaf then (cs.getD (insPos ks k) default).children else (cs.getD (insPos ks k) default).children.take 2))).Sublist (toList.interleave cs ks) :=
              ((List.sublist_append_left (toList (BTreeNode.mk (cs.getD (insPos ks k) default).is_leaf ((cs.getD (insPos ks k) default).keys.take 1) (if (cs.getD (insPos ks k) default).is_leaf then (cs.getD (insPos ks k) default).children else (cs.getD (insPos ks k) default).children.take 2))) _).trans
                hsubhalves).trans hchild_sub
            simp only [btree_search_node, hi2]
            rw [if_neg hnc, if_neg (by simp), hgds]
            refine ih _ k data sz hwf1 ?_ ?_ ?_ ?_ s hs_ht
            · exact List.Pairwise.sublist (List.Sublist.map _ hsubH1) hsort
            · exact fun hk => hfresh ((List.Sublist.map _ hsubH1).subset hk)
            · exact le_trans hh1 hchild_ht
            · simp only [BTreeNode.keys_mk]
              rw [hk1]
              decide
      · -- non-full child: descend directly
        have hres : btree_insert_non_full (fuel + 1) (.mk false ks cs) k data sz =
            .mk false ks (cs.set (insPos ks k)
              (btree_insert_non_full fuel (cs.getD (insPos ks k) default) k data sz)) := by
          simp only [btree_insert_non_full]
          rw [if_neg (by simp), if_neg hfull]
        rw [hres] at hsf ⊢
        have hchild_nf : (cs.getD (insPos ks k) default).keys.length < ORDER - 1 :=
          lt_of_le_of_ne (insWF_keys_le _ hchild_wf) hfull
        cases sfuel with
        | zero =>
          exact absurd hsf (by
            have := height_pos (BTreeNode.mk false ks (cs.set (insPos ks k)
              (btree_insert_non_full fuel (cs.getD (insPos ks k) default) k data sz)))
            omega)
        | succ s =>
          have hcmem : btree_insert_non_full fuel (cs.getD (insPos ks k) default)
              k data sz ∈ cs.set (insPos ks k)
              (btree_insert_non_full fuel (cs.getD (insPos ks k) default) k data sz) :=
            mem_set_self _ _ _ hics
          have hs_ht : height (btree_insert_non_full fuel
              (cs.getD (insPos ks k) default) k data sz) ≤ s := by
            have := @height_lt_of_mem _ false ks _ hcmem
            omega
          have hgd : (cs.set (insPos ks k)
              (btree_insert_non_full fuel (cs.getD (insPos ks k) default) k data sz)).getD
              ((ks.takeWhile (fun kv => kv.key < k)).length) default =
              btree_insert_non_full fuel (cs.getD (insPos ks k) default) k data sz := by
            rw [← hpos]
            exact getD_set_self _ _ _ _ hics
          simp only [btree_search_node]
          rw [if_neg (hnotmem_ks _), if_neg (by simp), hgd]
          exact ih _ k data sz hchild_wf hchild_sorted hchild_fresh hchild_ht
            hchild_nf s hs_ht

/-- The full-root path of `btree_insert` (manual root split, then descent
into the chosen half) computes exactly `btree_insert_non_full` applied to
the fresh root above the old one with one more level of fuel. -/
theorem btree_insert_full_root (r : BTreeNode) (k : Int) (data : List Nat)
    (sz m : Nat) (hfull : r.keys.length = ORDER - 1) :
    btree_insert ⟨some r, m⟩ k data sz =
      ⟨some (btree_insert_non_full (height r + 1) (.mk false [] [r]) k data sz), m⟩ := by
  conv_lhs => rw [btree_insert]
  simp only [hfull, if_true, eq_self_iff_true]
  conv_rhs => rw [btree_insert_non_full]
  simp only [BTreeNode.is_leaf_mk, Bool.false_eq_true, if_false,
    show insPos ([] : List KeyValue) k = 0 from rfl,
    show (([r] : List BTreeNode).getD 0 default) = r from rfl, hfull,
    eq_self_iff_true, gt_iff_lt, Nat.zero_add, if_true]

/-- C9.  `btree_insert` stores a private copy of exactly `data_size` bytes
of the caller's buffer, taken at insert time: on any well-formed tree not
already containing the key, a subsequent `btree_search` for that key
returns a value holding precisely the first `data_size` bytes the buffer
had when `btree_insert` ran (so later changes to, or release of, the
caller's buffer cannot affect it), with `data_size` recorded. -/
theorem C9_insert_snapshot (t : BTree) (k : Int) (data : List Nat) (sz : Nat)
    (hwf : WFTree t = true)
    (hfresh : k ∉ btree_traverse t)
    (hsz : sz ≤ data.length) :
    btree_search (btree_insert t k data sz) k =
      some { data := some (data.take sz), data_size := sz } ∧
    (data.take sz).length = sz := by
  refine ⟨?_, by rw [List.length_take]; exact Nat.min_eq_left hsz⟩
  cases t with
  | mk root m =>
  cases root with
  | none =>
    simp [btree_insert, btree_search, btree_search_node, height,
      height.heightList, List.takeWhile]
  | some r =>
    obtain ⟨hnwf, hsorted⟩ := WF_parts (by simpa [WFTree] using hwf)
    have hins : insWF r = true := insWF_of_nodeWF r hnwf
    have hfresh' : k ∉ (toList r).map (·.key) := by
      simpa [btree_traverse] using hfresh
    by_cases hfull : r.keys.length = ORDER - 1
    · rw [btree_insert_full_root r k data sz m hfull]
      have hnr_wf : insWF (.mk false [] [r]) = true := by
        simp [insWF, insWFList, hins, ORDER]
      have hnr_toList : toList (.mk false [] [r]) = toList r := rfl
      have hnr_h : height (.mk false [] [r]) ≤ height r + 1 := by
        rw [height_mk]
        simp [height.heightList]
        omega
      have hmain := insert_non_full_search (height r + 1) (.mk false [] [r])
        k data sz hnr_wf (by rw [hnr_toList]; exact hsorted)
        (by rw [hnr_toList]; exact hfresh') hnr_h (by simp [ORDER])
      rw [btree_search]
      exact hmain _ (le_refl _)
    · have hnf : r.keys.length < ORDER - 1 :=
        lt_of_le_of_ne (by
          cases r with
          | mk l ks cs => simpa using (nodeWF_mk_parts hnwf).2.1) hfull
      have hres : btree_insert ⟨some r, m⟩ k data sz =
          ⟨some (btree_insert_non_full (height r) r k data sz), m⟩ := by
        conv_lhs => rw [btree_insert]
        simp only [if_neg hfull]
      rw [hres]
      have hmain := insert_non_full_search (height r) r k data sz hins
        hsorted hfresh' (le_refl _) hnf
      rw [btree_search]
      exact hmain _ (le_refl _)

/-- Witness for `C9_insert_snapshot`: inserting the fresh key `8` with the
one-byte buffer `[9]` into the scenario-B1 tree and searching for it. -/
theorem C9_witness :
    WFTree tB1 = true ∧ (8 : Int) ∉ btree_traverse tB1 ∧
    (1 : Nat) ≤ [(9 : Nat)].length ∧
    btree_search (btree_insert tB1 8 [9] 1) 8 =
      some { data := some ([(9 : Nat)].take 1), data_size := 1 } ∧
    ([(9 : Nat)].take 1).length = 1 :=
  ⟨by decide, by decide, by decide,
   (C9_insert_snapshot tB1 8 [9] 1 (by decide) (by decide) (by decide)).1,
   (C9_insert_snapshot tB1 8 [9] 1 (by decide) (by decide) (by decide)).2⟩


/-! ## Helper lemmas for the delete path (claim C5) -/

theorem set_append_at {α : Type} (A : List α) (x : α) (B : List α) (y : α)
    (i : Nat) (h : i = A.length) :
    (A ++ x :: B).set i y = A ++ y :: B := by
  subst h
  induction A with
  | nil => rfl
  | cons a A' ih => simpa using ih

theorem set_append_at2 {α : Type} (A : List α) (x z : α) (B : List α)
    (y : α) (i : Nat) (h : i = A.length + 1) :
    (A ++ x :: z :: B).set i y = A ++ x :: y :: B := by
  subst h
  induction A with
  | nil => rfl
  | cons a A' ih => simpa using ih

theorem getD_at {α : Type} (A : List α) (x : α) (B : List α) (d : α)
    (i : Nat) (h : i = A.length) : (A ++ x :: B).getD i d = x := by
  subst h
  exact getD_append_middle A x B d

theorem getD_at2 {α : Type} (A : List α) (x z : α) (B : List α) (d : α)
    (i : Nat) (h : i = A.length + 1) : (A ++ x :: z :: B).getD i d = z := by
  subst h
  exact getD_append_middle2 A x z B d

theorem take_at {α : Type} (A B : List α) (i : Nat) (h : i = A.length) :
    (A ++ B).take i = A := by
  subst h
  exact List.take_left A B

theorem drop_at {α : Type} (A B : List α) (i : Nat) (h : i = A.length) :
    (A ++ B).drop i = B := by
  subst h
  exact List.drop_left A B

theorem takeWhile_length_le {α : Type} (p : α → Bool) (l : List α) :
    (l.takeWhile p).length ≤ l.length := (List.takeWhile_sublist p).length_le

theorem getD_mem {α : Type} (l : List α) (i : Nat) (d : α)
    (h : i < l.length) : l.getD i d ∈ l := by
  rw [List.getD_eq_getElem _ _ h]
  exact List.getElem_mem h

theorem getLastD_mem {α : Type} (l : List α) (d : α) (h : l ≠ []) :
    l.getLastD d ∈ l := by
  rcases List.eq_nil_or_concat l with rfl | ⟨A, a, rfl⟩
  · exact absurd rfl h
  · rw [List.concat_eq_append]
    simp [List.getLastD_concat]

theorem headD_mem {α : Type} (l : List α) (d : α) (h : l ≠ []) :
    l.headD d ∈ l := by
  cases l with
  | nil => exact absurd rfl h
  | cons a l' => simp

theorem list_split_at {α : Type} (l : List α) (i : Nat) (d : α)
    (h : i < l.length) :
    l = l.take i ++ l.getD i d :: l.drop (i + 1) := by
  rw [List.getD_eq_getElem _ _ h]
  conv_lhs => rw [← List.take_append_drop i l]
  rw [List.drop_eq_getElem_cons h]

theorem list_split_at2 {α : Type} (l : List α) (i : Nat) (d : α)
    (h : i + 1 < l.length) :
    l = l.take i ++ l.getD i d :: l.getD (i + 1) d :: l.drop (i + 2) := by
  have h0 : i < l.length := by omega
  rw [List.getD_eq_getElem _ _ h0, List.getD_eq_getElem _ _ h]
  conv_lhs => rw [← List.take_append_drop i l]
  rw [List.drop_eq_getElem_cons h0, List.drop_eq_getElem_cons h]

theorem interleave_concat (cs : List BTreeNode) (ks : List KeyValue)
    (c : BTreeNode) (kv : KeyValue) (h : cs.length = ks.length + 1) :
    toList.interleave (cs ++ [c]) (ks ++ [kv]) =
      toList.interleave cs ks ++ kv :: toList c := by
  induction ks generalizing cs with
  | nil =>
    cases cs with
    | nil => simp at h
    | cons c0 cs' =>
      have hcs' : cs' = [] := by
        cases cs' with
        | nil => rfl
        | cons a b => simp at h
      subst hcs'
      simp [interleave_cons_cons, interleave_cons_nil]
  | cons k0 ks' ih =>
    cases cs with
    | nil => simp at h
    | cons c0 cs' =>
      simp only [List.cons_append, interleave_cons_cons]
      rw [ih cs' (by simpa using h)]
      simp

theorem interleave_eq_head_tail (c : BTreeNode) (cs : List BTreeNode)
    (ks : List KeyValue) (h : cs.length = ks.length) :
    toList.interleave (c :: cs) ks = toList c ++ interleaveK ks cs := by
  induction ks generalizing c cs with
  | nil =>
    rw [interleave_cons_nil]
    simp [interleaveK]
  | cons kv ks' ih =>
    cases cs with
    | nil => simp at h
    | cons c2 cs' =>
      rw [interleave_cons_cons, ih c2 cs' (by simpa using h)]
      simp [interleaveK]

theorem interleave_pair_decomp (C1 : List BTreeNode) (K1 : List KeyValue)
    (x y : BTreeNode) (C2 : List BTreeNode) (s : KeyValue)
    (K2 : List KeyValue) (h1 : C1.length = K1.length)
    (h2 : C2.length = K2.length) :
    toList.interleave (C1 ++ x :: y :: C2) (K1 ++ s :: K2) =
      toList.interleave C1 K1 ++
        (toList x ++ s :: (toList y ++ interleaveK K2 C2)) := by
  rw [interleave_append C1 (x :: y :: C2) K1 (s :: K2) h1,
    interleave_cons_cons, interleave_eq_head_tail y C2 K2 h2]

theorem toList_internal_eq (n : BTreeNode) (h : n.is_leaf = false) :
    toList n = toList.interleave n.children n.keys := by
  cases n with
  | mk l ks cs =>
    simp only [BTreeNode.is_leaf_mk] at h
    subst h
    rfl

theorem interleave_set (CS : List BTreeNode) (K : List KeyValue) (i : Nat)
    (c₂ : BTreeNode) (hs : CS.length = K.length + 1) (hi : i < CS.length)
    (heq : toList c₂ = toList (CS.getD i default)) :
    toList.interleave (CS.set i c₂) K = toList.interleave CS K := by
  induction CS generalizing K i with
  | nil => simp at hi
  | cons c CS' ih =>
    cases i with
    | zero =>
      cases K with
      | nil =>
        simp only [List.set_cons_zero]
        rw [interleave_cons_nil, interleave_cons_nil]
        simpa using heq
      | cons kv K' =>
        simp only [List.set_cons_zero]
        rw [interleave_cons_cons, interleave_cons_cons]
        simp only [List.getD_cons_zero] at heq
        rw [heq]
    | succ i' =>
      cases K with
      | nil =>
        simp only [List.length_cons, List.length_nil] at hs hi
        omega
      | cons kv K' =>
        simp only [List.set_cons_succ]
        rw [interleave_cons_cons, interleave_cons_cons]
        rw [ih K' i' (by simpa using hs) (by simpa using hi)
          (by simpa using heq)]

theorem heightsUniform_forall (cs : List BTreeNode) :
    heightsUniform cs = true ↔
      ∀ c ∈ cs, height c = height.heightList cs := by
  simp [heightsUniform, List.all_eq_true]

theorem heightList_eq_of_const (cs : List BTreeNode) (v : Nat)
    (h : ∀ c ∈ cs, height c = v) (hne : cs ≠ []) :
    height.heightList cs = v := by
  induction cs with
  | nil => exact absurd rfl hne
  | cons c cs' ih =>
    simp only [height.heightList]
    rcases eq_or_ne cs' [] with rfl | hne'
    · simp [height.heightList, h c (by simp)]
    · rw [h c (by simp), ih (fun x hx => h x (by simp [hx])) hne']
      simp

theorem heightsUniform_of_const (cs : List BTreeNode) (v : Nat)
    (h : ∀ c ∈ cs, height c = v) : heightsUniform cs = true := by
  rcases eq_or_ne cs [] with rfl | hne
  · rfl
  · rw [heightsUniform_forall]
    intro c hc
    rw [h c hc, heightList_eq_of_const cs v h hne]

theorem internal_height_two {ks : List KeyValue} {cs : List BTreeNode}
    (h : nodeWF (.mk false ks cs) = true) :
    2 ≤ height (.mk false ks cs) := by
  obtain ⟨h1, -, -, h4⟩ := nodeWF_mk_parts h
  obtain ⟨hlen, -, -⟩ := h4 rfl
  have hne : cs ≠ [] := by
    intro he
    rw [he] at hlen
    simp at hlen
  obtain ⟨c, hc⟩ := List.exists_mem_of_ne_nil cs hne
  have hlt := @height_lt_of_mem _ false ks _ hc
  have hp := height_pos c
  omega

theorem leaf_iff_height {n : BTreeNode} (h : nodeWF n = true) :
    n.is_leaf = true ↔ height n = 1 := by
  cases n with
  | mk l ks cs =>
    cases l with
    | true =>
      obtain ⟨-, -, h3, -⟩ := nodeWF_mk_parts h
      rw [h3 rfl]
      simp [height_mk, height.heightList]
    | false =>
      have h2 := internal_height_two h
      simp only [BTreeNode.is_leaf_mk]
      constructor
      · intro hx
        exact absurd hx (by simp)
      · intro hx
        omega

theorem flag_eq_of_heights {a b : BTreeNode} (ha : nodeWF a = true)
    (hb : nodeWF b = true) (h : height a = height b) :
    a.is_leaf = b.is_leaf := by
  cases hla : a.is_leaf with
  | true =>
    have h1 := (leaf_iff_height ha).mp hla
    have h2 : height b = 1 := by omega
    exact ((leaf_iff_height hb).mpr h2).symm
  | false =>
    cases hlb : b.is_leaf with
    | true =>
      have h2 := (leaf_iff_height hb).mp hlb
      have h1 : height a = 1 := by omega
      have h3 := (leaf_iff_height ha).mpr h1
      rw [h3] at hla
      exact absurd hla (by simp)
    | false => rfl

theorem nodeWF_child_height {ks : List KeyValue} {cs : List BTreeNode}
    (h : nodeWF (.mk false ks cs) = true) {c : BTreeNode} (hc : c ∈ cs) :
    height c + 1 = height (.mk false ks cs) := by
  obtain ⟨-, -, -, h4⟩ := nodeWF_mk_parts h
  obtain ⟨-, huni, -⟩ := h4 rfl
  have hu := (heightsUniform_forall cs).mp huni c hc
  rw [height_mk]
  omega

theorem scan_hit_of_mem {ks : List KeyValue} {k : Int}
    (hs : (ks.map (·.key)).Pairwise (· < ·)) (hm : k ∈ ks.map (·.key)) :
    (ks.takeWhile (fun kv => kv.key < k)).length < ks.length ∧
      (ks.getD (ks.takeWhile (fun kv => kv.key < k)).length default).key =
        k := by
  induction ks with
  | nil => simp at hm
  | cons a ks' ih =>
    simp only [List.map_cons, List.pairwise_cons] at hs
    simp only [List.map_cons, List.mem_cons] at hm
    by_cases ha : a.key < k
    · rw [List.takeWhile_cons_of_pos (by simpa using ha)]
      have hm' : k ∈ ks'.map (·.key) := by
        rcases hm with h1 | h1
        · exact absurd h1 (by omega)
        · exact h1
      obtain ⟨ih1, ih2⟩ := ih hs.2 hm'
      constructor
      · simpa using ih1
      · simpa using ih2
    · rw [List.takeWhile_cons_of_neg (by simpa using ha)]
      refine ⟨by simp, ?_⟩
      simp only [List.length_nil, List.getD_cons_zero]
      rcases hm with h1 | h1
      · omega
      · have h2 := hs.1 k h1
        omega

theorem mem_interleave_child {k : Int} :
    ∀ (ks : List KeyValue) (cs : List BTreeNode),
      cs.length = ks.length + 1 →
      ((toList.interleave cs ks).map (·.key)).Pairwise (· < ·) →
      k ∈ (toList.interleave cs ks).map (·.key) →
      k ∉ ks.map (·.key) →
      k ∈ (toList (cs.getD
        (ks.takeWhile (fun kv => kv.key < k)).length default)).map
        (·.key) := by
  intro ks
  induction ks with
  | nil =>
    intro cs hlen hs hm hnot
    cases cs with
    | nil => simp at hlen
    | cons c cs' =>
      rw [interleave_cons_nil] at hm
      simpa using hm
  | cons kv ks' ih =>
    intro cs hlen hs hm hnot
    cases cs with
    | nil => simp at hlen
    | cons c cs' =>
      rw [interleave_cons_cons] at hs hm
      simp only [List.map_append, List.map_cons] at hs hm
      rw [List.pairwise_append] at hs
      obtain ⟨hsl, hsr, hcross⟩ := hs
      rw [List.pairwise_cons] at hsr
      obtain ⟨hkv_lt, hsr'⟩ := hsr
      simp only [List.map_cons, List.mem_cons] at hnot
      push_neg at hnot
      by_cases hlt : kv.key < k
      · rw [List.takeWhile_cons_of_pos (by simpa using hlt)]
        simp only [List.length_cons, List.getD_cons_succ]
        have hm' : k ∈ (toList.interleave cs' ks').map (·.key) := by
          rcases List.mem_append.mp hm with h1 | h1
          · have h2 := hcross k h1 kv.key (by simp)
            exact absurd hlt (by omega)
          · rcases List.mem_cons.mp h1 with h2 | h2
            · exact absurd h2 hnot.1
            · exact h2
        exact ih cs' (by simpa using hlen) hsr' hm' hnot.2
      · rw [List.takeWhile_cons_of_neg (by simpa using hlt)]
        simp only [List.length_nil, List.getD_cons_zero]
        rcases List.mem_append.mp hm with h1 | h1
        · exact h1
        · exfalso
          rcases List.mem_cons.mp h1 with h2 | h2
          · exact hnot.1 h2
          · have h3 := hkv_lt k h2
            omega

theorem exists_concat {α : Type} (l : List α) (h : l ≠ []) :
    ∃ A a, l = A ++ [a] := by
  rcases List.eq_nil_or_concat l with rfl | ⟨A, a, rfl⟩
  · exact absurd rfl h
  · exact ⟨A, a, by rw [List.concat_eq_append]⟩

theorem interleave_concat_nil (cs : List BTreeNode) (ks : List KeyValue)
    (c : BTreeNode) (h : cs.length = ks.length) :
    toList.interleave (cs ++ [c]) ks =
      toList.interleave cs ks ++ toList c := by
  induction ks generalizing cs with
  | nil =>
    cases cs with
    | nil => rfl
    | cons a b => simp at h
  | cons kv ks' ih =>
    cases cs with
    | nil => simp at h
    | cons c0 cs' =>
      simp only [List.cons_append, interleave_cons_cons]
      rw [ih cs' (by simpa using h)]
      simp

theorem borrow_prev_local_leaf (sks cks : List KeyValue) (s : KeyValue)
    (A B C D : List BTreeNode) (hsne : sks ≠ []) :
    toList (.mk true sks.dropLast A) ++ (sks.getLastD default) ::
      toList (.mk true (s :: cks) B) =
      toList (.mk true sks C) ++ s :: toList (.mk true cks D) := by
  obtain ⟨S, a, rfl⟩ := exists_concat sks hsne
  simp [toList_leaf, List.dropLast_concat, List.getLastD_concat]

theorem borrow_prev_local_int (sks cks : List KeyValue)
    (scs ccs : List BTreeNode) (s : KeyValue)
    (hsne : sks ≠ [])
    (hss : scs.length = sks.length + 1) :
    toList (.mk false sks.dropLast scs.dropLast) ++
      (sks.getLastD default) ::
        toList (.mk false (s :: cks) (scs.getLastD default :: ccs)) =
      toList (.mk false sks scs) ++ s :: toList (.mk false cks ccs) := by
  obtain ⟨S, a, rfl⟩ := exists_concat sks hsne
  obtain ⟨SC, sc, rfl⟩ := exists_concat scs (by
    intro he
    rw [he] at hss
    simp at hss)
  have hlen : SC.length = S.length + 1 := by
    simp only [List.length_append, List.length_cons, List.length_nil] at hss
    omega
  simp only [toList_internal, List.dropLast_concat, List.getLastD_concat]
  rw [interleave_concat SC S sc a hlen, interleave_cons_cons]
  simp [List.append_assoc]

theorem borrow_next_local_leaf (sks cks : List KeyValue) (s : KeyValue)
    (A B C D : List BTreeNode) (hsne : sks ≠ []) :
    toList (.mk true (cks ++ [s]) A) ++
      (sks.headD default) :: toList (.mk true (sks.drop 1) B) =
      toList (.mk true cks C) ++ s :: toList (.mk true sks D) := by
  cases sks with
  | nil => exact absurd rfl hsne
  | cons b S' => simp [toList_leaf]

theorem borrow_next_local_int (sks cks : List KeyValue)
    (scs ccs : List BTreeNode) (s : KeyValue)
    (hsne : sks ≠ [])
    (hss : scs.length = sks.length + 1)
    (hcc : ccs.length = cks.length + 1) :
    toList (.mk false (cks ++ [s]) (ccs ++ [scs.headD default])) ++
      (sks.headD default) ::
        toList (.mk false (sks.drop 1) (scs.drop 1)) =
      toList (.mk false cks ccs) ++ s :: toList (.mk false sks scs) := by
  cases sks with
  | nil => exact absurd rfl hsne
  | cons b S' =>
    cases scs with
    | nil => simp at hss
    | cons sc0 SC' =>
      simp only [toList_internal, List.headD_cons, List.drop_succ_cons,
        List.drop_zero]
      rw [interleave_concat ccs cks sc0 s hcc]
      rw [interleave_cons_cons]
      simp [List.append_assoc]

theorem merge_local_leaf (sks cks : List KeyValue) (s : KeyValue)
    (A C D : List BTreeNode) :
    toList (.mk true (cks ++ s :: sks) A) =
      toList (.mk true cks C) ++ s :: toList (.mk true sks D) := by
  simp [toList_leaf]

theorem merge_local_int (sks cks : List KeyValue)
    (scs ccs : List BTreeNode) (s : KeyValue)
    (hss : scs.length = sks.length + 1)
    (hcc : ccs.length = cks.length + 1) :
    toList (.mk false (cks ++ s :: sks) (ccs ++ scs)) =
      toList (.mk false cks ccs) ++ s :: toList (.mk false sks scs) := by
  obtain ⟨CC, cl, rfl⟩ := exists_concat ccs (by
    intro he
    rw [he] at hcc
    simp at hcc)
  have hlen : CC.length = cks.length := by
    simp only [List.length_append, List.length_cons, List.length_nil] at hcc
    omega
  simp only [toList_internal]
  have hL : (CC ++ [cl]) ++ scs = CC ++ cl :: scs := by simp
  rw [hL, interleave_append CC (cl :: scs) cks (s :: sks) hlen,
    interleave_cons_cons, interleave_concat_nil CC cks cl hlen]
  simp [List.append_assoc]

theorem node_exists_mk (n : BTreeNode) : ∃ f ks cs, n = .mk f ks cs := by
  cases n with
  | mk f ks cs => exact ⟨f, ks, cs, rfl⟩

theorem append_cons_append {α : Type} (a : List α) (x : α) (b t : List α) :
    a ++ x :: (b ++ t) = (a ++ x :: b) ++ t := by simp

theorem nodeWF_build (l : Bool) (ks : List KeyValue) (cs : List BTreeNode)
    (h1 : 1 ≤ ks.length) (h2 : ks.length ≤ ORDER - 1)
    (h3 : l = true → cs = [])
    (h4 : l = false → cs.length = ks.length + 1 ∧ heightsUniform cs = true ∧
      nodesWF cs = true) : nodeWF (.mk l ks cs) = true := by
  cases l with
  | true =>
    rw [nodeWF]
    simp [h1, h2, h3 rfl]
  | false =>
    obtain ⟨a, b, c⟩ := h4 rfl
    rw [nodeWF]
    simp [h1, h2, a, b, c]

theorem borrow_prev_facts (ks : List KeyValue) (cs : List BTreeNode)
    (idx : Nat) (hn : nodeWF (.mk false ks cs) = true)
    (h1 : 1 ≤ idx) (h2 : idx ≤ ks.length)
    (hdef : (cs.getD idx default).keys.length < 2)
    (hsur : 2 ≤ (cs.getD (idx - 1) default).keys.length) :
    toList (btree_borrow_from_prev (.mk false ks cs) idx) =
        toList (.mk false ks cs) ∧
      (btree_borrow_from_prev (.mk false ks cs) idx).is_leaf = false ∧
      (btree_borrow_from_prev (.mk false ks cs) idx).keys.length =
        ks.length ∧
      (btree_borrow_from_prev (.mk false ks cs) idx).children.length =
        cs.length ∧
      (∀ c ∈ (btree_borrow_from_prev (.mk false ks cs) idx).children,
        nodeWF c = true ∧ height c + 1 ≤ height (.mk false ks cs)) ∧
      (toList (cs.getD idx default)).Sublist
        (toList ((btree_borrow_from_prev
          (.mk false ks cs) idx).children.getD idx default)) := by
  obtain ⟨-, -, -, h4⟩ := nodeWF_mk_parts hn
  obtain ⟨hcl, huni, hnwf⟩ := h4 rfl
  rw [nodesWF_iff_forall] at hnwf
  rw [heightsUniform_forall] at huni
  have hn2 : 2 ≤ height (.mk false ks cs) := internal_height_two hn
  have hidx1 : idx - 1 < cs.length := by omega
  have hidx2 : idx < cs.length := by omega
  obtain ⟨fs, sks, scs, hsib⟩ := node_exists_mk (cs.getD (idx - 1) default)
  obtain ⟨fc, cks, ccs, hchild⟩ := node_exists_mk (cs.getD idx default)
  have hmem_s : BTreeNode.mk fs sks scs ∈ cs :=
    hsib ▸ getD_mem cs (idx - 1) default hidx1
  have hmem_c : BTreeNode.mk fc cks ccs ∈ cs :=
    hchild ▸ getD_mem cs idx default hidx2
  have hwf_s := hnwf _ hmem_s
  have hwf_c := hnwf _ hmem_c
  have hh_s := huni _ hmem_s
  have hh_c := huni _ hmem_c
  have hflag : fc = fs := by
    have hfe := flag_eq_of_heights hwf_c hwf_s (by rw [hh_s, hh_c])
    simpa using hfe
  subst hflag
  obtain ⟨hs1, hs2, hs3, hs4⟩ := nodeWF_mk_parts hwf_s
  obtain ⟨hc1, hc2, hc3, hc4⟩ := nodeWF_mk_parts hwf_c
  have hs2' : sks.length ≤ 4 := by simpa [ORDER] using hs2
  have hsne : sks ≠ [] := by
    intro he
    rw [he] at hs1
    exact absurd hs1 (by simp)
  have hdef' : cks.length < 2 := by
    rw [hchild] at hdef
    simpa using hdef
  have hsur' : 2 ≤ sks.length := by
    rw [hsib] at hsur
    simpa using hsur
  have hK1l : (ks.take (idx - 1)).length = idx - 1 := by
    simp [List.length_take]
    omega
  have hC1l : (cs.take (idx - 1)).length = idx - 1 := by
    simp [List.length_take]
    omega
  have hK2l : (ks.drop idx).length = ks.length - idx := by simp
  have hC2l : (cs.drop (idx + 1)).length = cs.length - (idx + 1) := by simp
  have hCK1 : (cs.take (idx - 1)).length = (ks.take (idx - 1)).length := by
    omega
  have hCK2 : (cs.drop (idx + 1)).length = (ks.drop idx).length := by
    omega
  have hksplit : ks = ks.take (idx - 1) ++
      ks.getD (idx - 1) default :: ks.drop idx := by
    have h0 : idx - 1 < ks.length := by omega
    have hsp := list_split_at ks (idx - 1) default h0
    have e1 : idx - 1 + 1 = idx := by omega
    rwa [e1] at hsp
  have hcsplit : cs = cs.take (idx - 1) ++ BTreeNode.mk fc sks scs ::
      BTreeNode.mk fc cks ccs :: cs.drop (idx + 1) := by
    have h0 : idx - 1 + 1 < cs.length := by omega
    have hsp := list_split_at2 cs (idx - 1) default h0
    have e1 : idx - 1 + 1 = idx := by omega
    have e2 : idx - 1 + 2 = idx + 1 := by omega
    rw [e1, e2, hsib, hchild] at hsp
    exact hsp
  have hop : btree_borrow_from_prev (.mk false ks cs) idx =
      .mk false (ks.set (idx - 1) (sks.getLastD default))
        ((cs.set (idx - 1)
            (.mk fc sks.dropLast
              (if fc = true then scs else scs.dropLast))).set idx
          (.mk fc (ks.getD (idx - 1) default :: cks)
            (if fc = true then ccs
             else scs.getLastD default :: ccs))) := by
    simp only [btree_borrow_from_prev, BTreeNode.children_mk,
      BTreeNode.keys_mk, hsib, hchild, BTreeNode.is_leaf_mk]
  have hks2 : ks.set (idx - 1) (sks.getLastD default) =
      ks.take (idx - 1) ++ (sks.getLastD default) :: ks.drop idx := by
    conv_lhs => rw [hksplit]
    exact set_append_at _ _ _ _ (idx - 1) hK1l.symm
  have hcs2 : (cs.set (idx - 1)
        (.mk fc sks.dropLast
          (if fc = true then scs else scs.dropLast))).set idx
        (.mk fc (ks.getD (idx - 1) default :: cks)
          (if fc = true then ccs else scs.getLastD default :: ccs)) =
      cs.take (idx - 1) ++
        BTreeNode.mk fc sks.dropLast
          (if fc = true then scs else scs.dropLast) ::
        BTreeNode.mk fc (ks.getD (idx - 1) default :: cks)
          (if fc = true then ccs else scs.getLastD default :: ccs) ::
        cs.drop (idx + 1) := by
    conv_lhs => rw [hcsplit]
    rw [set_append_at _ _ _ _ (idx - 1) hC1l.symm]
    exact set_append_at2 _ _ _ _ _ idx (by omega)
  have hlocal : toList (BTreeNode.mk fc sks.dropLast
          (if fc = true then scs else scs.dropLast)) ++
        (sks.getLastD default) ::
          toList (BTreeNode.mk fc (ks.getD (idx - 1) default :: cks)
            (if fc = true then ccs else scs.getLastD default :: ccs)) =
      toList (BTreeNode.mk fc sks scs) ++
        (ks.getD (idx - 1) default) ::
          toList (BTreeNode.mk fc cks ccs) := by
    cases fc with
    | true =>
      simp only [if_pos rfl]
      exact borrow_prev_local_leaf sks cks (ks.getD (idx - 1) default)
        scs ccs scs ccs hsne
    | false =>
      rw [if_neg Bool.false_ne_true, if_neg Bool.false_ne_true]
      exact borrow_prev_local_int sks cks scs ccs
        (ks.getD (idx - 1) default) hsne (hs4 rfl).1
  have htl : toList (btree_borrow_from_prev (.mk false ks cs) idx) =
      toList (.mk false ks cs) := by
    rw [hop, hks2, hcs2, toList_internal, toList_internal]
    conv_rhs => rw [hcsplit, hksplit]
    rw [interleave_pair_decomp _ _ _ _ _ _ _ hCK1 hCK2,
      interleave_pair_decomp _ _ _ _ _ _ _ hCK1 hCK2,
      append_cons_append, append_cons_append, hlocal]
  refine ⟨htl, by rw [hop]; simp, by rw [hop]; simp, by rw [hop]; simp, ?_, ?_⟩
  · intro c hc
    rw [hop] at hc
    simp only [BTreeNode.children_mk] at hc
    rw [hcs2] at hc
    rcases List.mem_append.mp hc with hcc | hcc
    · have hcs'' : c ∈ cs := List.take_subset _ _ hcc
      refine ⟨hnwf c hcs'', ?_⟩
      have hch := nodeWF_child_height hn hcs''
      omega
    · rcases List.mem_cons.mp hcc with rfl | hcc
      · -- the rebuilt previous sibling
        cases fc with
        | true =>
          have hscs : scs = [] := hs3 rfl
          subst hscs
          constructor
          · refine nodeWF_build _ _ _ ?_ ?_ (fun _ => by simp) (by simp)
            · simp [List.length_dropLast]
              omega
            · simp [List.length_dropLast, ORDER]
              omega
          · rw [if_pos rfl, height_mk]
            simp only [height.heightList]
            omega
        | false =>
          obtain ⟨hsl, hsu, hsw⟩ := hs4 rfl
          have hsu' := (heightsUniform_forall scs).mp hsu
          have hsw' := (nodesWF_iff_forall scs).mp hsw
          rw [if_neg Bool.false_ne_true]
          constructor
          · refine nodeWF_build _ _ _ ?_ ?_ (by simp) (fun _ => ⟨?_, ?_, ?_⟩)
            · simp [List.length_dropLast]
              omega
            · simp [List.length_dropLast, ORDER]
              omega
            · simp [List.length_dropLast]
              omega
            · exact heightsUniform_of_const _ (height.heightList scs)
                (fun x hx => hsu' x ((List.dropLast_sublist scs).subset hx))
            · exact (nodesWF_iff_forall _).mpr
                (fun x hx => hsw' x ((List.dropLast_sublist scs).subset hx))
          · have hd1 : height.heightList scs.dropLast ≤
                height.heightList scs :=
              heightList_sublist (List.dropLast_sublist scs)
            have he1 : height (BTreeNode.mk false sks scs) =
                1 + height.heightList scs := height_mk _ _ _
            have he2 : height (.mk false ks cs) =
                1 + height.heightList cs := height_mk _ _ _
            rw [height_mk]
            omega
      · rcases List.mem_cons.mp hcc with rfl | hcc
        · -- the rebuilt deficient child
          cases fc with
          | true =>
            have hccs : ccs = [] := hc3 rfl
            subst hccs
            constructor
            · refine nodeWF_build _ _ _ (by simp) ?_ (fun _ => by
                rw [if_pos rfl]) (by simp)
              · simp [ORDER]
                omega
            · rw [if_pos rfl, height_mk]
              simp only [height.heightList]
              omega
          | false =>
            obtain ⟨hsl, hsu, hsw⟩ := hs4 rfl
            obtain ⟨hcle, hcu, hcw⟩ := hc4 rfl
            have hsu' := (heightsUniform_forall scs).mp hsu
            have hsw' := (nodesWF_iff_forall scs).mp hsw
            have hcu' := (heightsUniform_forall ccs).mp hcu
            have hcw' := (nodesWF_iff_forall ccs).mp hcw
            have hscsne : scs ≠ [] := by
              intro he
              rw [he] at hsl
              simp at hsl
            have heqv : height.heightList scs = height.heightList ccs := by
              have he1 : height (BTreeNode.mk false sks scs) =
                  1 + height.heightList scs := height_mk _ _ _
              have he2 : height (BTreeNode.mk false cks ccs) =
                  1 + height.heightList ccs := height_mk _ _ _
              omega
            have hconst : ∀ x ∈ scs.getLastD default :: ccs,
                height x = height.heightList ccs := by
              intro x hx
              rcases List.mem_cons.mp hx with rfl | hx'
              · rw [hsu' _ (getLastD_mem scs default hscsne), heqv]
              · exact hcu' x hx'
            rw [if_neg Bool.false_ne_true]
            constructor
            · refine nodeWF_build _ _ _ (by simp) ?_ (by simp)
                (fun _ => ⟨?_, ?_, ?_⟩)
              · simp [ORDER]
                omega
              · simp
                omega
              · exact heightsUniform_of_const _ _ hconst
              · refine (nodesWF_iff_forall _).mpr (fun x hx => ?_)
                rcases List.mem_cons.mp hx with rfl | hx'
                · exact hsw' _ (getLastD_mem scs default hscsne)
                · exact hcw' x hx'
            · have hLL : height.heightList
                  (scs.getLastD default :: ccs) = height.heightList ccs :=
                heightList_eq_of_const _ _ hconst (by simp)
              have hch := nodeWF_child_height hn hmem_c
              have he2 : height (BTreeNode.mk false cks ccs) =
                  1 + height.heightList ccs := height_mk _ _ _
              rw [height_mk, hLL]
              omega
        · have hcs'' : c ∈ cs := List.drop_subset _ _ hcc
          refine ⟨hnwf c hcs'', ?_⟩
          have hch := nodeWF_child_height hn hcs''
          omega
  · rw [hop]
    simp only [BTreeNode.children_mk]
    rw [hcs2, getD_at2 _ _ _ _ _ idx (by omega), hchild]
    cases fc with
    | true =>
      rw [if_pos rfl, toList_leaf, toList_leaf]
      exact List.sublist_cons_self _ _
    | false =>
      rw [if_neg Bool.false_ne_true, toList_internal, toList_internal,
        interleave_cons_cons]
      exact ((List.sublist_cons_self _ _).trans
        (List.sublist_append_right _ _))

theorem borrow_next_facts (ks : List KeyValue) (cs : List BTreeNode)
    (idx : Nat) (hn : nodeWF (.mk false ks cs) = true)
    (h2 : idx < ks.length)
    (hdef : (cs.getD idx default).keys.length < 2)
    (hsur : 2 ≤ (cs.getD (idx + 1) default).keys.length) :
    toList (btree_borrow_from_next (.mk false ks cs) idx) =
        toList (.mk false ks cs) ∧
      (btree_borrow_from_next (.mk false ks cs) idx).is_leaf = false ∧
      (btree_borrow_from_next (.mk false ks cs) idx).keys.length =
        ks.length ∧
      (btree_borrow_from_next (.mk false ks cs) idx).children.length =
        cs.length ∧
      (∀ c ∈ (btree_borrow_from_next (.mk false ks cs) idx).children,
        nodeWF c = true ∧ height c + 1 ≤ height (.mk false ks cs)) ∧
      (toList (cs.getD idx default)).Sublist
        (toList ((btree_borrow_from_next
          (.mk false ks cs) idx).children.getD idx default)) := by
  obtain ⟨-, -, -, h4⟩ := nodeWF_mk_parts hn
  obtain ⟨hcl, huni, hnwf⟩ := h4 rfl
  rw [nodesWF_iff_forall] at hnwf
  rw [heightsUniform_forall] at huni
  have hn2 : 2 ≤ height (.mk false ks cs) := internal_height_two hn
  have hidx1 : idx + 1 < cs.length := by omega
  have hidx2 : idx < cs.length := by omega
  obtain ⟨fs, sks, scs, hsib⟩ := node_exists_mk (cs.getD (idx + 1) default)
  obtain ⟨fc, cks, ccs, hchild⟩ := node_exists_mk (cs.getD idx default)
  have hmem_s : BTreeNode.mk fs sks scs ∈ cs :=
    hsib ▸ getD_mem cs (idx + 1) default hidx1
  have hmem_c : BTreeNode.mk fc cks ccs ∈ cs :=
    hchild ▸ getD_mem cs idx default hidx2
  have hwf_s := hnwf _ hmem_s
  have hwf_c := hnwf _ hmem_c
  have hh_s := huni _ hmem_s
  have hh_c := huni _ hmem_c
  have hflag : fc = fs := by
    have hfe := flag_eq_of_heights hwf_c hwf_s (by rw [hh_s, hh_c])
    simpa using hfe
  subst hflag
  obtain ⟨hs1, hs2, hs3, hs4⟩ := nodeWF_mk_parts hwf_s
  obtain ⟨hc1, hc2, hc3, hc4⟩ := nodeWF_mk_parts hwf_c
  have hs2' : sks.length ≤ 4 := by simpa [ORDER] using hs2
  have hsne : sks ≠ [] := by
    intro he
    rw [he] at hs1
    exact absurd hs1 (by simp)
  have hdef' : cks.length < 2 := by
    rw [hchild] at hdef
    simpa using hdef
  have hsur' : 2 ≤ sks.length := by
    rw [hsib] at hsur
    simpa using hsur
  have hK1l : (ks.take idx).length = idx := by
    simp [List.length_take]
    omega
  have hC1l : (cs.take idx).length = idx := by
    simp [List.length_take]
    omega
  have hCK1 : (cs.take idx).length = (ks.take idx).length := by omega
  have hCK2 : (cs.drop (idx + 2)).length = (ks.drop (idx + 1)).length := by
    simp
    omega
  have hksplit : ks = ks.take idx ++
      ks.getD idx default :: ks.drop (idx + 1) :=
    list_split_at ks idx default h2
  have hcsplit : cs = cs.take idx ++ BTreeNode.mk fc cks ccs ::
      BTreeNode.mk fc sks scs :: cs.drop (idx + 2) := by
    have h0 : idx + 1 < cs.length := by omega
    have hsp := list_split_at2 cs idx default h0
    rw [hsib, hchild] at hsp
    exact hsp
  have hop : btree_borrow_from_next (.mk false ks cs) idx =
      .mk false (ks.set idx (sks.headD default))
        ((cs.set idx
            (.mk fc (cks ++ [ks.getD idx default])
              (if fc = true then ccs
               else ccs ++ [scs.headD default]))).set (idx + 1)
          (.mk fc (sks.drop 1)
            (if fc = true then scs else scs.drop 1))) := by
    simp only [btree_borrow_from_next, BTreeNode.children_mk,
      BTreeNode.keys_mk, hsib, hchild, BTreeNode.is_leaf_mk]
  have hks2 : ks.set idx (sks.headD default) =
      ks.take idx ++ (sks.headD default) :: ks.drop (idx + 1) := by
    conv_lhs => rw [hksplit]
    exact set_append_at _ _ _ _ idx hK1l.symm
  have hcs2 : (cs.set idx
        (.mk fc (cks ++ [ks.getD idx default])
          (if fc = true then ccs
           else ccs ++ [scs.headD default]))).set (idx + 1)
        (.mk fc (sks.drop 1)
          (if fc = true then scs else scs.drop 1)) =
      cs.take idx ++
        BTreeNode.mk fc (cks ++ [ks.getD idx default])
          (if fc = true then ccs else ccs ++ [scs.headD default]) ::
        BTreeNode.mk fc (sks.drop 1)
          (if fc = true then scs else scs.drop 1) ::
        cs.drop (idx + 2) := by
    conv_lhs => rw [hcsplit]
    rw [set_append_at _ _ _ _ idx hC1l.symm]
    exact set_append_at2 _ _ _ _ _ (idx + 1) (by omega)
  have hlocal : toList (BTreeNode.mk fc (cks ++ [ks.getD idx default])
          (if fc = true then ccs else ccs ++ [scs.headD default])) ++
        (sks.headD default) ::
          toList (BTreeNode.mk fc (sks.drop 1)
            (if fc = true then scs else scs.drop 1)) =
      toList (BTreeNode.mk fc cks ccs) ++
        (ks.getD idx default) :: toList (BTreeNode.mk fc sks scs) := by
    cases fc with
    | true =>
      simp only [if_pos rfl]
      exact borrow_next_local_leaf sks cks (ks.getD idx default)
        ccs scs ccs scs hsne
    | false =>
      rw [if_neg Bool.false_ne_true, if_neg Bool.false_ne_true]
      exact borrow_next_local_int sks cks scs ccs
        (ks.getD idx default) hsne (hs4 rfl).1 (hc4 rfl).1
  have htl : toList (btree_borrow_from_next (.mk false ks cs) idx) =
      toList (.mk false ks cs) := by
    rw [hop, hks2, hcs2, toList_internal, toList_internal]
    conv_rhs => rw [hcsplit, hksplit]
    rw [interleave_pair_decomp _ _ _ _ _ _ _ hCK1 hCK2,
      interleave_pair_decomp _ _ _ _ _ _ _ hCK1 hCK2,
      append_cons_append, append_cons_append, hlocal]
  refine ⟨htl, by rw [hop]; simp, by rw [hop]; simp, by rw [hop]; simp,
    ?_, ?_⟩
  · intro c hc
    rw [hop] at hc
    simp only [BTreeNode.children_mk] at hc
    rw [hcs2] at hc
    rcases List.mem_append.mp hc with hcc | hcc
    · have hcs'' : c ∈ cs := List.take_subset _ _ hcc
      refine ⟨hnwf c hcs'', ?_⟩
      have hch := nodeWF_child_height hn hcs''
      omega
    · rcases List.mem_cons.mp hcc with rfl | hcc
      · -- the rebuilt deficient child
        cases fc with
        | true =>
          have hccs : ccs = [] := hc3 rfl
          subst hccs
          constructor
          · refine nodeWF_build _ _ _ (by simp) ?_
              (fun _ => by rw [if_pos rfl]) (by simp)
            · simp [ORDER]
              omega
          · rw [if_pos rfl, height_mk]
            simp only [height.heightList]
            omega
        | false =>
          obtain ⟨hsl, hsu, hsw⟩ := hs4 rfl
          obtain ⟨hcle, hcu, hcw⟩ := hc4 rfl
          have hsu' := (heightsUniform_forall scs).mp hsu
          have hsw' := (nodesWF_iff_forall scs).mp hsw
          have hcu' := (heightsUniform_forall ccs).mp hcu
          have hcw' := (nodesWF_iff_forall ccs).mp hcw
          have hscsne : scs ≠ [] := by
            intro he
            rw [he] at hsl
            simp at hsl
          have heqv : height.heightList scs = height.heightList ccs := by
            have he1 : height (BTreeNode.mk false sks scs) =
                1 + height.heightList scs := height_mk _ _ _
            have he2 : height (BTreeNode.mk false cks ccs) =
                1 + height.heightList ccs := height_mk _ _ _
            omega
          have hconst : ∀ x ∈ ccs ++ [scs.headD default],
              height x = height.heightList ccs := by
            intro x hx
            rcases List.mem_append.mp hx with hx' | hx'
            · exact hcu' x hx'
            · have hxe : x = scs.headD default := by simpa using hx'
              subst hxe
              rw [hsu' _ (headD_mem scs default hscsne), heqv]
          rw [if_neg Bool.false_ne_true]
          constructor
          · refine nodeWF_build _ _ _ (by simp) ?_ (by simp)
              (fun _ => ⟨?_, ?_, ?_⟩)
            · simp [ORDER]
              omega
            · simp
              omega
            · exact heightsUniform_of_const _ _ hconst
            · refine (nodesWF_iff_forall _).mpr (fun x hx => ?_)
              rcases List.mem_append.mp hx with hx' | hx'
              · exact hcw' x hx'
              · have hxe : x = scs.headD default := by simpa using hx'
                subst hxe
                exact hsw' _ (headD_mem scs default hscsne)
          · have hLL : height.heightList (ccs ++ [scs.headD default]) =
                height.heightList ccs :=
              heightList_eq_of_const _ _ hconst (by simp)
            have hch := nodeWF_child_height hn hmem_c
            have he2 : height (BTreeNode.mk false cks ccs) =
                1 + height.heightList ccs := height_mk _ _ _
            rw [height_mk, hLL]
            omega
      · rcases List.mem_cons.mp hcc with rfl | hcc
        · -- the rebuilt next sibling
          cases fc with
          | true =>
            have hscs : scs = [] := hs3 rfl
            subst hscs
            constructor
            · refine nodeWF_build _ _ _ ?_ ?_
                (fun _ => by rw [if_pos rfl]) (by simp)
              · simp
                omega
              · simp [ORDER]
                omega
            · rw [if_pos rfl, height_mk]
              simp only [height.heightList]
              omega
          | false =>
            obtain ⟨hsl, hsu, hsw⟩ := hs4 rfl
            have hsu' := (heightsUniform_forall scs).mp hsu
            have hsw' := (nodesWF_iff_forall scs).mp hsw
            rw [if_neg Bool.false_ne_true]
            constructor
            · refine nodeWF_build _ _ _ ?_ ?_ (by simp)
                (fun _ => ⟨?_, ?_, ?_⟩)
              · simp
                omega
              · simp [ORDER]
                omega
              · simp
                omega
              · exact heightsUniform_of_const _ (height.heightList scs)
                  (fun x hx => hsu' x ((List.drop_sublist 1 scs).subset hx))
              · exact (nodesWF_iff_forall _).mpr
                  (fun x hx => hsw' x ((List.drop_sublist 1 scs).subset hx))
            · have hd1 : height.heightList (scs.drop 1) ≤
                  height.heightList scs :=
                heightList_sublist (List.drop_sublist 1 scs)
              have he1 : height (BTreeNode.mk false sks scs) =
                  1 + height.heightList scs := height_mk _ _ _
              have he2 : height (.mk false ks cs) =
                  1 + height.heightList cs := height_mk _ _ _
              rw [height_mk]
              omega
        · have hcs'' : c ∈ cs := List.drop_subset _ _ hcc
          refine ⟨hnwf c hcs'', ?_⟩
          have hch := nodeWF_child_height hn hcs''
          omega
  · rw [hop]
    simp only [BTreeNode.children_mk]
    rw [hcs2, getD_at _ _ _ _ idx hC1l.symm, hchild]
    cases fc with
    | true =>
      rw [if_pos rfl, toList_leaf, toList_leaf]
      exact List.sublist_append_left _ _
    | false =>
      rw [if_neg Bool.false_ne_true, toList_internal, toList_internal,
        interleave_concat ccs cks (scs.headD default)
          (ks.getD idx default) (hc4 rfl).1]
      exact List.sublist_append_left _ _

theorem merge_facts (ks : List KeyValue) (cs : List BTreeNode)
    (idx : Nat) (hn : nodeWF (.mk false ks cs) = true)
    (h2 : idx < ks.length)
    (hdef : (cs.getD idx default).keys.length < 2)
    (hsib_low : (cs.getD (idx + 1) default).keys.length < 2) :
    toList (btree_merge_children (.mk false ks cs) idx) =
        toList (.mk false ks cs) ∧
      (btree_merge_children (.mk false ks cs) idx).is_leaf = false ∧
      (btree_merge_children (.mk false ks cs) idx).keys.length + 1 =
        ks.length ∧
      (btree_merge_children (.mk false ks cs) idx).children.length + 1 =
        cs.length ∧
      (∀ c ∈ (btree_merge_children (.mk false ks cs) idx).children,
        nodeWF c = true ∧ height c + 1 ≤ height (.mk false ks cs)) ∧
      (toList (cs.getD idx default)).Sublist
        (toList ((btree_merge_children
          (.mk false ks cs) idx).children.getD idx default)) ∧
      (toList (cs.getD (idx + 1) default)).Sublist
        (toList ((btree_merge_children
          (.mk false ks cs) idx).children.getD idx default)) := by
  obtain ⟨-, -, -, h4⟩ := nodeWF_mk_parts hn
  obtain ⟨hcl, huni, hnwf⟩ := h4 rfl
  rw [nodesWF_iff_forall] at hnwf
  rw [heightsUniform_forall] at huni
  have hn2 : 2 ≤ height (.mk false ks cs) := internal_height_two hn
  have hidx1 : idx + 1 < cs.length := by omega
  have hidx2 : idx < cs.length := by omega
  obtain ⟨fs, sks, scs, hsib⟩ := node_exists_mk (cs.getD (idx + 1) default)
  obtain ⟨fc, cks, ccs, hchild⟩ := node_exists_mk (cs.getD idx default)
  have hmem_s : BTreeNode.mk fs sks scs ∈ cs :=
    hsib ▸ getD_mem cs (idx + 1) default hidx1
  have hmem_c : BTreeNode.mk fc cks ccs ∈ cs :=
    hchild ▸ getD_mem cs idx default hidx2
  have hwf_s := hnwf _ hmem_s
  have hwf_c := hnwf _ hmem_c
  have hh_s := huni _ hmem_s
  have hh_c := huni _ hmem_c
  have hflag : fc = fs := by
    have hfe := flag_eq_of_heights hwf_c hwf_s (by rw [hh_s, hh_c])
    simpa using hfe
  subst hflag
  obtain ⟨hs1, hs2, hs3, hs4⟩ := nodeWF_mk_parts hwf_s
  obtain ⟨hc1, hc2, hc3, hc4⟩ := nodeWF_mk_parts hwf_c
  have hdef' : cks.length < 2 := by
    rw [hchild] at hdef
    simpa using hdef
  have hsib' : sks.length < 2 := by
    rw [hsib] at hsib_low
    simpa using hsib_low
  have hK1l : (ks.take idx).length = idx := by
    simp [List.length_take]
    omega
  have hC1l : (cs.take idx).length = idx := by
    simp [List.length_take]
    omega
  have hCK1 : (cs.take idx).length = (ks.take idx).length := by omega
  have hCK2 : (cs.drop (idx + 2)).length = (ks.drop (idx + 1)).length := by
    simp
    omega
  have hksplit : ks = ks.take idx ++
      ks.getD idx default :: ks.drop (idx + 1) :=
    list_split_at ks idx default h2
  have hcsplit : cs = cs.take idx ++ BTreeNode.mk fc cks ccs ::
      BTreeNode.mk fc sks scs :: cs.drop (idx + 2) := by
    have h0 : idx + 1 < cs.length := by omega
    have hsp := list_split_at2 cs idx default h0
    rw [hsib, hchild] at hsp
    exact hsp
  have hop : btree_merge_children (.mk false ks cs) idx =
      .mk false (ks.take idx ++ ks.drop (idx + 1))
        (cs.take idx ++
          BTreeNode.mk fc (cks ++ ks.getD idx default :: sks)
            (if fc = true then ccs else ccs ++ scs) ::
          cs.drop (idx + 2)) := by
    simp only [btree_merge_children, BTreeNode.children_mk,
      BTreeNode.keys_mk, hsib, hchild, BTreeNode.is_leaf_mk]
  have hml : toList (BTreeNode.mk fc (cks ++ ks.getD idx default :: sks)
        (if fc = true then ccs else ccs ++ scs)) =
      toList (BTreeNode.mk fc cks ccs) ++
        (ks.getD idx default) :: toList (BTreeNode.mk fc sks scs) := by
    cases fc with
    | true =>
      simp only [if_pos rfl]
      exact merge_local_leaf sks cks (ks.getD idx default) ccs ccs scs
    | false =>
      rw [if_neg Bool.false_ne_true]
      exact merge_local_int sks cks scs ccs (ks.getD idx default)
        (hs4 rfl).1 (hc4 rfl).1
  have htl : toList (btree_merge_children (.mk false ks cs) idx) =
      toList (.mk false ks cs) := by
    rw [hop, toList_internal, toList_internal]
    conv_rhs => rw [hcsplit, hksplit]
    rw [interleave_append _ _ _ _ hCK1,
      interleave_eq_head_tail _ _ _ hCK2,
      interleave_pair_decomp _ _ _ _ _ _ _ hCK1 hCK2, hml]
    simp [List.append_assoc]
  refine ⟨htl, by rw [hop]; simp, ?_, ?_, ?_, ?_, ?_⟩
  · rw [hop]
    simp [List.length_take]
    omega
  · rw [hop]
    simp [List.length_take]
    omega
  · intro c hc
    rw [hop] at hc
    simp only [BTreeNode.children_mk] at hc
    rcases List.mem_append.mp hc with hcc | hcc
    · have hcs'' : c ∈ cs := List.take_subset _ _ hcc
      refine ⟨hnwf c hcs'', ?_⟩
      have hch := nodeWF_child_height hn hcs''
      omega
    · rcases List.mem_cons.mp hcc with rfl | hcc
      · -- the merged child
        cases fc with
        | true =>
          have hccs : ccs = [] := hc3 rfl
          subst hccs
          constructor
          · refine nodeWF_build _ _ _ (by simp; omega) ?_
              (fun _ => by rw [if_pos rfl]) (by simp)
            · simp [ORDER]
              omega
          · rw [if_pos rfl, height_mk]
            simp only [height.heightList]
            omega
        | false =>
          obtain ⟨hsl, hsu, hsw⟩ := hs4 rfl
          obtain ⟨hcle, hcu, hcw⟩ := hc4 rfl
          have hsu' := (heightsUniform_forall scs).mp hsu
          have hsw' := (nodesWF_iff_forall scs).mp hsw
          have hcu' := (heightsUniform_forall ccs).mp hcu
          have hcw' := (nodesWF_iff_forall ccs).mp hcw
          have hccsne : ccs ≠ [] := by
            intro he
            rw [he] at hcle
            simp at hcle
          have heqv : height.heightList scs = height.heightList ccs := by
            have he1 : height (BTreeNode.mk false sks scs) =
                1 + height.heightList scs := height_mk _ _ _
            have he2 : height (BTreeNode.mk false cks ccs) =
                1 + height.heightList ccs := height_mk _ _ _
            omega
          have hconst : ∀ x ∈ ccs ++ scs,
              height x = height.heightList ccs := by
            intro x hx
            rcases List.mem_append.mp hx with hx' | hx'
            · exact hcu' x hx'
            · rw [hsu' x hx', heqv]
          rw [if_neg Bool.false_ne_true]
          constructor
          · refine nodeWF_build _ _ _ (by simp; omega) ?_ (by simp)
              (fun _ => ⟨?_, ?_, ?_⟩)
            · simp [ORDER]
              omega
            · simp
              omega
            · exact heightsUniform_of_const _ _ hconst
            · refine (nodesWF_iff_forall _).mpr (fun x hx => ?_)
              rcases List.mem_append.mp hx with hx' | hx'
              · exact hcw' x hx'
              · exact hsw' x hx'
          · have hLL : height.heightList (ccs ++ scs) =
                height.heightList ccs :=
              heightList_eq_of_const _ _ hconst (by
                intro he
                rcases List.append_eq_nil.mp he with ⟨he1, -⟩
                exact absurd he1 hccsne)
            have hch := nodeWF_child_height hn hmem_c
            have he2 : height (BTreeNode.mk false cks ccs) =
                1 + height.heightList ccs := height_mk _ _ _
            rw [height_mk, hLL]
            omega
      · have hcs'' : c ∈ cs := List.drop_subset _ _ hcc
        refine ⟨hnwf c hcs'', ?_⟩
        have hch := nodeWF_child_height hn hcs''
        omega
  · rw [hop]
    simp only [BTreeNode.children_mk]
    rw [getD_at _ _ _ _ idx hC1l.symm, hchild, hml]
    exact List.sublist_append_left _ _
  · rw [hop]
    simp only [BTreeNode.children_mk]
    rw [getD_at _ _ _ _ idx hC1l.symm, hsib, hml]
    exact (List.sublist_cons_self _ _).trans
      (List.sublist_append_right _ _)

theorem descend_facts (ks : List KeyValue) (cs : List BTreeNode) (idx : Nat)
    (hn : nodeWF (.mk false ks cs) = true)
    (hidx : idx ≤ ks.length)
    (n₁ : BTreeNode) (idx' : Nat)
    (hn₁ : n₁ = (if (cs.getD idx default).keys.length < ORDER / 2 then
        btree_fill_child (.mk false ks cs) idx else .mk false ks cs))
    (hidx' : idx' = (if idx = ks.length ∧ idx > n₁.keys.length then idx - 1
        else idx)) :
    toList n₁ = toList (.mk false ks cs) ∧
      n₁.is_leaf = false ∧
      n₁.children.length = n₁.keys.length + 1 ∧
      idx' < n₁.children.length ∧
      (∀ c ∈ n₁.children, nodeWF c = true ∧
        height c + 1 ≤ height (.mk false ks cs)) ∧
      (toList (cs.getD idx default)).Sublist
        (toList (n₁.children.getD idx' default)) := by
  have h52 : ORDER / 2 = 2 := rfl
  obtain ⟨hks1, -, -, h4⟩ := nodeWF_mk_parts hn
  obtain ⟨hcl, -, hnwf⟩ := h4 rfl
  rw [nodesWF_iff_forall] at hnwf
  by_cases hfill : (cs.getD idx default).keys.length < ORDER / 2
  · have hfill' : (cs.getD idx default).keys.length < 2 := by
      rw [h52] at hfill
      exact hfill
    rw [if_pos hfill] at hn₁
    have hfc : btree_fill_child (.mk false ks cs) idx =
        (if idx ≠ 0 ∧
            (cs.getD (idx - 1) default).keys.length ≥ ORDER / 2 then
          btree_borrow_from_prev (.mk false ks cs) idx
        else if idx ≠ ks.length ∧
            (cs.getD (idx + 1) default).keys.length ≥ ORDER / 2 then
          btree_borrow_from_next (.mk false ks cs) idx
        else if idx = ks.length then
          btree_merge_children (.mk false ks cs) (idx - 1)
        else btree_merge_children (.mk false ks cs) idx) := by
      simp only [btree_fill_child, BTreeNode.children_mk, BTreeNode.keys_mk]
    by_cases hb1 : idx ≠ 0 ∧
        (cs.getD (idx - 1) default).keys.length ≥ ORDER / 2
    · rw [hfc, if_pos hb1] at hn₁
      subst hn₁
      obtain ⟨ftl, fleaf, fkeys, fchil, fwf, fsub⟩ :=
        borrow_prev_facts ks cs idx hn (by
          have hb := hb1.1
          omega) hidx hfill' (by
          have hb := hb1.2
          rw [h52] at hb
          exact hb)
      have hie : idx' = idx := by
        rw [hidx', if_neg]
        intro hand
        rw [fkeys] at hand
        omega
      subst hie
      refine ⟨ftl, fleaf, ?_, ?_, fwf, fsub⟩
      · rw [fchil, fkeys]
        exact hcl
      · rw [fchil]
        omega
    · by_cases hb2 : idx ≠ ks.length ∧
          (cs.getD (idx + 1) default).keys.length ≥ ORDER / 2
      · rw [hfc, if_neg hb1, if_pos hb2] at hn₁
        subst hn₁
        obtain ⟨ftl, fleaf, fkeys, fchil, fwf, fsub⟩ :=
          borrow_next_facts ks cs idx hn (by
            have hb := hb2.1
            omega) hfill' (by
            have hb := hb2.2
            rw [h52] at hb
            exact hb)
        have hie : idx' = idx := by
          rw [hidx', if_neg]
          intro hand
          rw [fkeys] at hand
          omega
        subst hie
        refine ⟨ftl, fleaf, ?_, ?_, fwf, fsub⟩
        · rw [fchil, fkeys]
          exact hcl
        · rw [fchil]
          omega
      · push_neg at hb1 hb2
        by_cases hb3 : idx = ks.length
        · rw [hfc, if_neg (by
              push_neg
              exact hb1), if_neg (by
              push_neg
              exact hb2), if_pos hb3] at hn₁
          subst hn₁
          have hidx0 : idx ≠ 0 := by omega
          have hprev : (cs.getD (idx - 1) default).keys.length < 2 := by
            have hb := hb1 hidx0
            rw [h52] at hb
            exact hb
          have e1 : idx - 1 + 1 = idx := by omega
          obtain ⟨ftl, fleaf, fkeys, fchil, fwf, fsubc, fsubs⟩ :=
            merge_facts ks cs (idx - 1) hn (by omega) hprev (by
              rw [e1]
              exact hfill')
          have hie : idx' = idx - 1 := by
            rw [hidx', if_pos]
            exact ⟨hb3, by omega⟩
          subst hie
          refine ⟨ftl, fleaf, by omega, by omega, fwf, ?_⟩
          rw [← e1]
          exact fsubs
        · rw [hfc, if_neg (by
              push_neg
              exact hb1), if_neg (by
              push_neg
              exact hb2), if_neg hb3] at hn₁
          subst hn₁
          have hnext : (cs.getD (idx + 1) default).keys.length < 2 := by
            have hb := hb2 hb3
            rw [h52] at hb
            exact hb
          obtain ⟨ftl, fleaf, fkeys, fchil, fwf, fsubc, fsubs⟩ :=
            merge_facts ks cs idx hn (by omega) hfill' hnext
          have hie : idx' = idx := by
            rw [hidx', if_neg]
            intro hand
            exact hb3 hand.1
          subst hie
          exact ⟨ftl, fleaf, by omega, by omega, fwf, fsubc⟩
  · rw [if_neg hfill] at hn₁
    subst hn₁
    have hie : idx' = idx := by
      rw [hidx', if_neg]
      intro hand
      simp only [BTreeNode.keys_mk] at hand
      omega
    subst hie
    refine ⟨rfl, by simp, by simpa using hcl, by simp; omega, ?_, ?_⟩
    · intro c hc
      simp only [BTreeNode.children_mk] at hc
      refine ⟨hnwf c hc, ?_⟩
      have hch := nodeWF_child_height hn hc
      omega
    · simp only [BTreeNode.children_mk]
      exact List.Sublist.refl _

theorem delete_from_node_succ (fuel : Nat) (n : BTreeNode) (k : Int) :
    btree_delete_from_node (fuel + 1) n k =
      (let idx := (n.keys.takeWhile (fun kv => kv.key < k)).length
       if idx < n.keys.length ∧ (n.keys.getD idx default).key = k then
         if n.is_leaf then (true, btree_remove_from_leaf n idx)
         else (true, btree_remove_from_non_leaf fuel n idx)
       else if n.is_leaf then (false, n)
       else
         let flag := idx = n.keys.length
         let n₁ := if (n.children.getD idx default).keys.length < ORDER / 2
           then btree_fill_child n idx
           else n
         let idx' := if flag ∧ idx > n₁.keys.length then idx - 1 else idx
         let res := btree_delete_from_node fuel
           (n₁.children.getD idx' default) k
         (res.1, .mk n₁.is_leaf n₁.keys (n₁.children.set idx' res.2))) := rfl

theorem delete_from_node_spec (fuel : Nat) :
    ∀ (n : BTreeNode) (k : Int), nodeWF n = true →
      ((toList n).map (·.key)).Pairwise (· < ·) →
      height n ≤ fuel →
      ((k ∉ (toList n).map (·.key) →
          (btree_delete_from_node fuel n k).1 = false ∧
          toList (btree_delete_from_node fuel n k).2 = toList n ∧
          ((btree_delete_from_node fuel n k).2.is_leaf = false →
            (btree_delete_from_node fuel n k).2.children.length =
              (btree_delete_from_node fuel n k).2.keys.length + 1)) ∧
        (k ∈ (toList n).map (·.key) →
          (btree_delete_from_node fuel n k).1 = true)) := by
  induction fuel with
  | zero =>
    intro n k hwf hs hh
    have hp := height_pos n
    exact absurd hh (by omega)
  | succ fuel ih =>
    intro n k hwf hs hh
    obtain ⟨l, ks, cs, rfl⟩ := node_exists_mk n
    rw [delete_from_node_succ]
    simp only [BTreeNode.keys_mk, BTreeNode.is_leaf_mk,
      BTreeNode.children_mk]
    by_cases hfound : (ks.takeWhile (fun kv => kv.key < k)).length <
        ks.length ∧
        (ks.getD ((ks.takeWhile (fun kv => kv.key < k)).length)
          default).key = k
    · rw [if_pos hfound]
      constructor
      · intro habs
        exfalso
        apply habs
        have h1 : ks.getD ((ks.takeWhile (fun kv => kv.key < k)).length)
            default ∈ ks := getD_mem _ _ _ hfound.1
        have h2 : (ks.getD ((ks.takeWhile (fun kv => kv.key < k)).length)
            default).key ∈ ks.map (fun x => x.key) :=
          List.mem_map_of_mem (fun x => x.key) h1
        rw [hfound.2] at h2
        cases l with
        | true => simpa [toList_leaf] using h2
        | false =>
          have hcl := ((nodeWF_mk_parts hwf).2.2.2 rfl).1
          have hks := keys_sublist_interleave cs ks hcl
          rw [toList_internal]
          exact (hks.map (fun x => x.key)).subset h2
      · intro hpres
        cases l <;> simp
    · rw [if_neg hfound]
      cases l with
      | true =>
        rw [if_pos rfl]
        constructor
        · intro habs
          refine ⟨rfl, rfl, ?_⟩
          intro hlf
          simp at hlf
        · intro hpres
          exfalso
          rw [toList_leaf] at hpres hs
          exact hfound (scan_hit_of_mem hs hpres)
      | false =>
        have hcl := ((nodeWF_mk_parts hwf).2.2.2 rfl).1
        have hs' : (ks.map (fun x => x.key)).Pairwise (· < ·) := by
          have hks := keys_sublist_interleave cs ks hcl
          exact List.Pairwise.sublist (hks.map (fun x => x.key))
            (by rwa [toList_internal] at hs)
        rw [if_neg Bool.false_ne_true]
        obtain ⟨dtl, dleaf, dshape, dlt, dwf, dsub⟩ :=
          descend_facts ks cs
            ((ks.takeWhile (fun kv => kv.key < k)).length)
            hwf (takeWhile_length_le _ _) _ _ rfl rfl
        have hwf_t := dwf _ (getD_mem _ _ default dlt)
        have hsubT := child_toList_sublist _ _ dshape _ dlt
        rw [← toList_internal_eq _ dleaf] at hsubT
        rw [dtl] at hsubT
        have hsorted_t := List.Pairwise.sublist
          (hsubT.map (fun x => x.key)) hs
        have IH := ih _ k hwf_t.1 hsorted_t (by
          have hb := hwf_t.2
          have hhn : height (BTreeNode.mk false ks cs) ≤ fuel + 1 := hh
          omega)
        constructor
        · intro habs
          have habs_t := fun hmem =>
            habs ((hsubT.map (fun x => x.key)).subset hmem)
          obtain ⟨ih1, ih2, -⟩ := IH.1 habs_t
          refine ⟨ih1, ?_, ?_⟩
          · rw [dleaf, toList_internal,
              interleave_set _ _ _ _ dshape dlt ih2,
              ← toList_internal_eq _ dleaf, dtl]
          · intro hlf
            simp only [BTreeNode.children_mk, BTreeNode.keys_mk,
              List.length_set]
            exact dshape
        · intro hpres
          have hnotk : k ∉ ks.map (fun x => x.key) := by
            intro hmem
            exact hfound (scan_hit_of_mem hs' hmem)
          have hloc := mem_interleave_child ks cs hcl
            (by rwa [toList_internal] at hs)
            (by rwa [toList_internal] at hpres) hnotk
          have hmem_t := (dsub.map (fun x => x.key)).subset hloc
          exact IH.2 hmem_t

theorem btree_delete_some (t : BTree) (r : BTreeNode) (k : Int)
    (h : t.root = some r) :
    btree_delete t k =
      (if (btree_delete_from_node (height r + 1) r k).2.keys.length = 0 then
        if (btree_delete_from_node (height r + 1) r k).2.is_leaf then
          ((btree_delete_from_node (height r + 1) r k).1, { t with root := none })
        else ((btree_delete_from_node (height r + 1) r k).1, { t with root := some ((btree_delete_from_node (height r + 1) r k).2.children.getD 0 default) })
      else ((btree_delete_from_node (height r + 1) r k).1, { t with root := some (btree_delete_from_node (height r + 1) r k).2 })) := by
  simp only [btree_delete, h]

/-- C5.  On a well-formed tree, `btree_delete` of an absent key returns
`false` and leaves the key–value contents untouched, and `btree_delete`
of a present key returns `true`. -/
theorem C5_delete_spec (t : BTree) (k : Int) (hwf : WFTree t = true) :
    (k ∉ (btree_contents t).map (·.key) →
        (btree_delete t k).1 = false ∧
        btree_contents (btree_delete t k).2 = btree_contents t) ∧
      (k ∈ (btree_contents t).map (·.key) →
        (btree_delete t k).1 = true) := by
  obtain ⟨rt, md⟩ := t
  cases rt with
  | none =>
    constructor
    · intro habs
      exact ⟨rfl, rfl⟩
    · intro hpres
      exact absurd hpres (by simp [btree_contents])
  | some r =>
    have hwf' : WF r = true := hwf
    obtain ⟨hnwf, hsorted⟩ := WF_parts hwf'
    obtain ⟨habs_spec, hpres_spec⟩ :=
      delete_from_node_spec (height r + 1) r k hnwf hsorted (by omega)
    constructor
    · intro habs
      obtain ⟨h1, h2, h3⟩ := habs_spec habs
      rw [btree_delete_some ⟨some r, md⟩ r k rfl]
      by_cases hk0 : (btree_delete_from_node
          (height r + 1) r k).2.keys.length = 0
      · rw [if_pos hk0]
        by_cases hlf : (btree_delete_from_node
            (height r + 1) r k).2.is_leaf = true
        · rw [if_pos hlf]
          refine ⟨h1, ?_⟩
          show ([] : List KeyValue) = toList r
          rw [← h2]
          obtain ⟨l2, ks2, cs2, he⟩ :=
            node_exists_mk (btree_delete_from_node (height r + 1) r k).2
          rw [he] at hlf hk0 ⊢
          simp only [BTreeNode.is_leaf_mk, BTreeNode.keys_mk] at hlf hk0
          subst hlf
          have hks2 : ks2 = [] := List.length_eq_zero.mp hk0
          subst hks2
          rfl
        · rw [if_neg hlf]
          have hlf' : (btree_delete_from_node
              (height r + 1) r k).2.is_leaf = false := by
            revert hlf
            cases (btree_delete_from_node (height r + 1) r k).2.is_leaf <;>
              simp
          have hshape := h3 hlf'
          refine ⟨h1, ?_⟩
          show toList _ = toList r
          obtain ⟨l2, ks2, cs2, he⟩ :=
            node_exists_mk (btree_delete_from_node (height r + 1) r k).2
          rw [he] at hlf' hk0 hshape h2 ⊢
          simp only [BTreeNode.is_leaf_mk, BTreeNode.keys_mk,
            BTreeNode.children_mk] at hlf' hk0 hshape
          subst hlf'
          have hks2 : ks2 = [] := List.length_eq_zero.mp hk0
          subst hks2
          cases cs2 with
          | nil => simp at hshape
          | cons c cs2' =>
            cases cs2' with
            | nil =>
              simp only [BTreeNode.children_mk]
              rw [← h2]
              rfl
            | cons c2 cs2'' => simp at hshape
      · rw [if_neg hk0]
        exact ⟨h1, h2⟩
    · intro hpres
      have hR := hpres_spec hpres
      rw [btree_delete_some ⟨some r, md⟩ r k rfl]
      split
      · split
        · exact hR
        · exact hR
      · exact hR

/-- Witness for `C5_delete_spec`: the concrete tree built in scenario B1
is well formed; deleting the absent key `8` returns `false` and preserves
the contents, and deleting the present key `6` returns `true`. -/
theorem C5_witness :
    WFTree tB1 = true ∧
    ((8 : Int) ∉ (btree_contents tB1).map (·.key) ∧
      (btree_delete tB1 8).1 = false ∧
      btree_contents (btree_delete tB1 8).2 = btree_contents tB1) ∧
    ((6 : Int) ∈ (btree_contents tB1).map (·.key) ∧
      (btree_delete tB1 6).1 = true) :=
  ⟨by decide,
   ⟨by decide, (C5_delete_spec tB1 8 (by decide)).1 (by decide)⟩,
   ⟨by decide, (C5_delete_spec tB1 6 (by decide)).2 (by decide)⟩⟩

end DB
